import Mathlib

/-!
Verification development for the globify translation core: a shallow
embedding of the ICU message parser (internal/icu/parser.go) and of the
two document merge processors (internal/processor/simple_processor.go and
internal/processor/ast_processor.go), with theorems about the behaviour
of structured translation, merge reuse, failure containment and
reassembly ordering.

Strings are modelled as Lean strings (lists of characters); Go maps are
modelled as association lists whose list order stands for the map
iteration order; the translation backend is a function from text and the
two locale codes to an Except value.  Recursive functions take an
explicit fuel argument (first position, decremented on every recursive
call) so that all definitions are executable and reduce; wrappers supply
fuel large enough for the input.  A Go runtime panic (slice bounds out of
range) is modelled by a dedicated crash outcome.
-/

namespace Globify

/-- Opening brace character, written via its code point. -/
def lbrace : Char := Char.ofNat 123

/-- Closing brace character, written via its code point. -/
def rbrace : Char := Char.ofNat 125

/-- Whitespace recognised by strings.TrimSpace (ASCII subset). -/
def trimWs (c : Char) : Bool :=
  c = ' ' ∨ c = '\t' ∨ c = '\n' ∨ c = Char.ofNat 11 ∨ c = Char.ofNat 12 ∨ c = '\r'

/-- Whitespace class of the regular expression escape used in the
complex-format pattern. -/
def wsChar (c : Char) : Bool :=
  c = '\t' ∨ c = '\n' ∨ c = Char.ofNat 12 ∨ c = '\r' ∨ c = ' '

/-- Go strings.TrimSpace on a character list. -/
def goTrim (s : List Char) : List Char :=
  ((s.dropWhile trimWs).reverse.dropWhile trimWs).reverse

/-- Build a string from a character list. -/
def listStr (s : List Char) : String := String.mk s

/-- Go slice expression message[a:b] on a character list (bounds are
checked by the caller where Go would panic). -/
def sub (l : List Char) (a b : Nat) : List Char := (l.drop a).take (b - a)

/-- Character of a list at an index, with a default. -/
def getC (l : List Char) (i : Nat) : Char := l.getD i ' '

/-- Go strings.SplitN(s, ",", 3) on a character list. -/
def splitTwoCommas (s : List Char) : List (List Char) :=
  let p0 := s.takeWhile (fun c => c ≠ ',')
  let r0 := s.drop p0.length
  match r0 with
  | [] => [p0]
  | _ :: r1 =>
    let p1 := r1.takeWhile (fun c => c ≠ ',')
    let r2 := r1.drop p1.length
    match r2 with
    | [] => [p0, p1]
    | _ :: r3 => [p0, p1, r3]

/-- Lookup in an association list, modelling Go map indexing. -/
def mget {α : Type} (k : String) : List (String × α) → Option α
  | [] => none
  | (a, b) :: rest => if a = k then some b else mget k rest

/-- Insert or replace a key in an association list, modelling Go map
assignment. -/
def upsert {α : Type} (k : String) (v : α) : List (String × α) → List (String × α)
  | [] => [(k, v)]
  | (a, b) :: rest => if a = k then (k, v) :: rest else (a, b) :: upsert k v rest

/-- Byte-order comparison of two strings, as used by sort.Strings. -/
def strLeB (a b : String) : Bool :=
  charsLe a.data b.data
where
  charsLe : List Char → List Char → Bool
    | [], _ => true
    | _ :: _, [] => false
    | c :: cs, d :: ds => if c < d then true else if d < c then false else charsLe cs ds

/-- Insert a string into a sorted list of strings. -/
def ordIns (s : String) : List String → List String
  | [] => [s]
  | t :: rest => if strLeB s t then s :: t :: rest else t :: ordIns s rest

/-- Sort a list of strings, modelling sort.Strings. -/
def sortStrings : List String → List String
  | [] => []
  | s :: rest => ordIns s (sortStrings rest)

/-- Parsed ICU message element (parser.go Element); option mappings are
association lists in map iteration order. -/
inductive Element where
  | literal (value : String)
  | argument (value style : String) (isDoubleBrace : Bool)
  | number (value style : String)
  | date (value style : String)
  | time (value style : String)
  | select (value : String) (options : List (String × List Element))
  | plural (value : String) (options : List (String × List Element))
  | pound
  | tag (value : String) (children : List Element)

/-- ArgumentElement.String. -/
def argumentString (v st : String) (dbl : Bool) : String :=
  let pre := if dbl then "\x7b\x7b" else "\x7b"
  let suf := if dbl then "\x7d\x7d" else "\x7d"
  if st ≠ "" then pre ++ v ++ ", " ++ st ++ suf else pre ++ v ++ suf

/-- Shared rendering of NumberElement.String, DateElement.String and
TimeElement.String with the given format word. -/
def formatString (word v st : String) : String :=
  if st ≠ "" then "\x7b" ++ v ++ ", " ++ word ++ ", " ++ st ++ "\x7d"
  else "\x7b" ++ v ++ ", " ++ word ++ "\x7d"

/-- Key order used by PluralElement.String: =0 first, =1 second, the
remaining keys in map iteration order, other last. -/
def pluralStringKeys (os : List (String × List Element)) : List String :=
  (if (mget "=0" os).isSome then ["=0"] else []) ++
  (if (mget "=1" os).isSome then ["=1"] else []) ++
  ((os.map Prod.fst).filter (fun k => ¬ (k = "=0" ∨ k = "=1" ∨ k = "other"))) ++
  (if (mget "other" os).isSome then ["other"] else [])

/-- Input shape of the rendering recursion: one element, a list of
elements, a select option list in map iteration order, or a key-order
driven plural option rendering. -/
inductive RIn where
  | el (e : Element)
  | els (l : List Element)
  | selOpts (os : List (String × List Element))
  | keyed (ks : List String) (os : List (String × List Element))

/-- Textual rendering recursion behind the String methods of the element
kinds: tags render their children between open and close tags, select
options follow map iteration order, plural options follow the
precomputed =0, =1, remaining, other key order. -/
def renderRun : Nat → RIn → String
  | 0, _ => ""
  | _ + 1, .el (.literal v) => v
  | _ + 1, .el (.argument v st dbl) => argumentString v st dbl
  | _ + 1, .el (.number v st) => formatString "number" v st
  | _ + 1, .el (.date v st) => formatString "date" v st
  | _ + 1, .el (.time v st) => formatString "time" v st
  | _ + 1, .el .pound => "#"
  | fuel + 1, .el (.tag v cs) => "<" ++ v ++ ">" ++ renderRun fuel (.els cs) ++ "</" ++ v ++ ">"
  | fuel + 1, .el (.select v os) =>
    "\x7b" ++ v ++ ", select, " ++ renderRun fuel (.selOpts os) ++ "\x7d"
  | fuel + 1, .el (.plural v os) =>
    "\x7b" ++ v ++ ", plural, " ++ renderRun fuel (.keyed (pluralStringKeys os) os) ++ "\x7d"
  | _ + 1, .els [] => ""
  | fuel + 1, .els (e :: rest) => renderRun fuel (.el e) ++ renderRun fuel (.els rest)
  | _ + 1, .selOpts [] => ""
  | fuel + 1, .selOpts ((k, v) :: rest) =>
    k ++ " \x7b" ++ renderRun fuel (.els v) ++ "\x7d " ++ renderRun fuel (.selOpts rest)
  | _ + 1, .keyed [] _ => ""
  | fuel + 1, .keyed (k :: ks) os =>
    k ++ " \x7b" ++ renderRun fuel (.els ((mget k os).getD [])) ++ "\x7d " ++
      renderRun fuel (.keyed ks os)

/-- Element.String: the textual rendering of one element. -/
def elementString (fuel : Nat) (e : Element) : String := renderRun fuel (.el e)

/-- Concatenated rendering of a list of elements. -/
def elementsString (fuel : Nat) (l : List Element) : String := renderRun fuel (.els l)

/-- Translation backend capability: Translate(text, from, target) returns
either the translated text or an error. -/
def Translator : Type := String → String → String → Except String String

/-- Fixed emission order of plural categories used by the ASTProcessor
reassembly (translateElement, plural branch). -/
def pluralForms : List String := ["zero", "one", "two", "few", "many", "other"]

/-- Reassembled select format: all category keys sorted, each option
written as key, open brace, translated body, close brace, space. -/
def selectEmit (v : String) (transOpts : List (String × String)) : String :=
  let keys := sortStrings (transOpts.map Prod.fst)
  "\x7b" ++ v ++ ", select, " ++
    (keys.foldl (fun acc k => acc ++ k ++ " \x7b" ++ (mget k transOpts).getD "" ++ "\x7d ") "") ++
    "\x7d"

/-- Reassembled plural format: the fixed category sequence first, then
any remaining categories sorted. -/
def pluralEmit (v : String) (transOpts : List (String × String)) : String :=
  let fixedPart := pluralForms.foldl
    (fun acc form =>
      match mget form transOpts with
      | some t => acc ++ form ++ " \x7b" ++ t ++ "\x7d "
      | none => acc) ""
  let remaining := sortStrings ((transOpts.map Prod.fst).filter (fun k => ¬ pluralForms.contains k))
  let restPart := remaining.foldl
    (fun acc k => acc ++ k ++ " \x7b" ++ (mget k transOpts).getD "" ++ "\x7d ") ""
  "\x7b" ++ v ++ ", plural, " ++ fixedPart ++ restPart ++ "\x7d"

/-- Error text used when the fuel of a fueled recursion runs out; with the
fuel supplied by the wrappers this value is never produced. -/
def fuelErr : String := "fuel exhausted"

/-- Input shape of the translation recursion: one element, a list of
elements, or the option translation loop with its error wrap text and
accumulated translated options. -/
inductive TIn where
  | el (e : Element)
  | els (l : List Element)
  | opts (wrap : String) (os : List (String × List Element)) (acc : List (String × String))

/-- Result shape of the translation recursion: a translated string, a
translated option mapping, or an error. -/
inductive TRes where
  | str (s : String)
  | opts (os : List (String × String))
  | err (m : String)

/-- Translation recursion of the ASTProcessor (translateElements and
translateElement): only non-empty literal values reach the backend; tags
recurse into their children; select and plural formats translate each
option in map iteration order and reassemble; all other elements are
rendered via their canonical textual form.  The second component is the
list of texts passed to the backend, in call order. -/
def translateRun : Nat → Translator → String → String → TIn → TRes × List String
  | 0, _, _, _, _ => (.err fuelErr, [])
  | _ + 1, tr, frm, tgt, .el (.literal v) =>
    if v = "" then (.str "", [])
    else
      match tr v frm tgt with
      | .ok t => (.str t, [v])
      | .error m => (.err ("failed to translate literal: " ++ m), [v])
  | fuel + 1, tr, frm, tgt, .el (.tag v cs) =>
    match translateRun fuel tr frm tgt (.els cs) with
    | (.str s, calls) => (.str ("<" ++ v ++ ">" ++ s ++ "</" ++ v ++ ">"), calls)
    | (.err m, calls) => (.err ("failed to translate tag content: " ++ m), calls)
    | (.opts _, calls) => (.err fuelErr, calls)
  | fuel + 1, tr, frm, tgt, .el (.select v os) =>
    match translateRun fuel tr frm tgt (.opts "failed to translate select option: " os []) with
    | (.opts transOpts, calls) => (.str (selectEmit v transOpts), calls)
    | (.err m, calls) => (.err m, calls)
    | (.str _, calls) => (.err fuelErr, calls)
  | fuel + 1, tr, frm, tgt, .el (.plural v os) =>
    match translateRun fuel tr frm tgt (.opts "failed to translate plural option: " os []) with
    | (.opts transOpts, calls) => (.str (pluralEmit v transOpts), calls)
    | (.err m, calls) => (.err m, calls)
    | (.str _, calls) => (.err fuelErr, calls)
  | _ + 1, _, _, _, .el (.argument v st dbl) => (.str (argumentString v st dbl), [])
  | _ + 1, _, _, _, .el (.number v st) => (.str (formatString "number" v st), [])
  | _ + 1, _, _, _, .el (.date v st) => (.str (formatString "date" v st), [])
  | _ + 1, _, _, _, .el (.time v st) => (.str (formatString "time" v st), [])
  | _ + 1, _, _, _, .el .pound => (.str "#", [])
  | _ + 1, _, _, _, .els [] => (.str "", [])
  | fuel + 1, tr, frm, tgt, .els (e :: rest) =>
    match translateRun fuel tr frm tgt (.el e) with
    | (.err m, cs) => (.err m, cs)
    | (.opts _, cs) => (.err fuelErr, cs)
    | (.str s, cs) =>
      match translateRun fuel tr frm tgt (.els rest) with
      | (.err m, cs2) => (.err m, cs ++ cs2)
      | (.opts _, cs2) => (.err fuelErr, cs ++ cs2)
      | (.str s2, cs2) => (.str (s ++ s2), cs ++ cs2)
  | _ + 1, _, _, _, .opts _ [] acc => (.opts acc, [])
  | fuel + 1, tr, frm, tgt, .opts wrap ((k, els) :: rest) acc =>
    match translateRun fuel tr frm tgt (.els els) with
    | (.err m, cs) => (.err (wrap ++ m), cs)
    | (.opts _, cs) => (.err fuelErr, cs)
    | (.str t, cs) =>
      match translateRun fuel tr frm tgt (.opts wrap rest (upsert k t acc)) with
      | (r, cs2) => (r, cs ++ cs2)

/-- ASTProcessor.translateElements: translate a list of elements, also
returning the backend call texts. -/
def translateElements (fuel : Nat) (tr : Translator) (frm tgt : String) (els : List Element) :
    Except String String × List String :=
  match translateRun fuel tr frm tgt (.els els) with
  | (.str s, cs) => (.ok s, cs)
  | (.err m, cs) => (.error m, cs)
  | (.opts _, cs) => (.error fuelErr, cs)

/-- ASTProcessor.translateElement: translate a single element, also
returning the backend call texts. -/
def translateElement (fuel : Nat) (tr : Translator) (frm tgt : String) (e : Element) :
    Except String String × List String :=
  match translateRun fuel tr frm tgt (.el e) with
  | (.str s, cs) => (.ok s, cs)
  | (.err m, cs) => (.error m, cs)
  | (.opts _, cs) => (.error fuelErr, cs)

/-- Input shape of the literal-segment collection, mirroring the
translation recursion. -/
inductive SIn where
  | el (e : Element)
  | els (l : List Element)
  | opts (os : List (String × List Element))

/-- Non-empty literal segment values reachable from the given input, in
the order the translation recursion visits them. -/
def segsRun : Nat → SIn → List String
  | 0, _ => []
  | _ + 1, .el (.literal v) => if v = "" then [] else [v]
  | fuel + 1, .el (.tag _ cs) => segsRun fuel (.els cs)
  | fuel + 1, .el (.select _ os) => segsRun fuel (.opts os)
  | fuel + 1, .el (.plural _ os) => segsRun fuel (.opts os)
  | _ + 1, .el (.argument _ _ _) => []
  | _ + 1, .el (.number _ _) => []
  | _ + 1, .el (.date _ _) => []
  | _ + 1, .el (.time _ _) => []
  | _ + 1, .el .pound => []
  | _ + 1, .els [] => []
  | fuel + 1, .els (e :: rest) => segsRun fuel (.el e) ++ segsRun fuel (.els rest)
  | _ + 1, .opts [] => []
  | fuel + 1, .opts ((_, els) :: rest) => segsRun fuel (.els els) ++ segsRun fuel (.opts rest)

/-- Non-empty literal segment values of a list of elements. -/
def litSegs (fuel : Nat) (els : List Element) : List String := segsRun fuel (.els els)

/-- Outcome of parsing: an element list, an error, or a Go runtime panic
(modelled as crash). -/
inductive PRes where
  | ok (els : List Element)
  | err (m : String)
  | crash

/-- Outcome of parsing an options text. -/
inductive ORes where
  | ok (os : List (String × List Element))
  | err (m : String)
  | crash

/-- Error message of the recursion depth guard in parseMessage. -/
def maxDepthErr : String := "maximum nesting depth exceeded"

/-- Error message of the unbalanced-brace check in parseOptions. -/
def unbalancedErr (t : List Char) : String :=
  "unbalanced braces in options text: " ++ listStr t

/-- Scan forward from index i counting brace nesting (depth bd), tracking
whether any nested opening brace was seen; returns the index of the brace
closing the construct, if any, together with the nested flag. -/
def braceScan : Nat → List Char → Nat → Nat → Bool → Option Nat × Bool
  | 0, _, _, _, nested => (none, nested)
  | fuel + 1, msg, i, bd, nested =>
    if i < msg.length then
      let c := getC msg i
      if c = lbrace then braceScan fuel msg (i + 1) (bd + 1) true
      else if c = rbrace then
        if bd = 1 then (some i, nested)
        else braceScan fuel msg (i + 1) (bd - 1) nested
      else braceScan fuel msg (i + 1) bd nested
    else (none, nested)

/-- Recognise the format word alternative of the complex-format pattern:
the literal word plural or select, returning the remainder. -/
def formatWord (s : List Char) : Option (Bool × List Char) :=
  if List.isPrefixOf ['p', 'l', 'u', 'r', 'a', 'l'] s then some (true, s.drop 6)
  else if List.isPrefixOf ['s', 'e', 'l', 'e', 'c', 't'] s then some (false, s.drop 6)
  else none

/-- Match of the anchored complex-format pattern against a brace-matched
span: an opening brace, a non-empty run without comma or braces (the
variable name), a comma, optional whitespace, plural or select, optional
whitespace, a comma, optional whitespace, a non-empty options text
without newline, and the closing brace at the very end. -/
def complexMatch (s : List Char) : Option (List Char × Bool × List Char) :=
  match s with
  | [] => none
  | c :: rest =>
    if c = lbrace then
      let g1 := rest.takeWhile (fun ch => ¬ (ch = ',' ∨ ch = lbrace ∨ ch = rbrace))
      if g1.isEmpty then none
      else
        match rest.drop g1.length with
        | ',' :: r2 =>
          match formatWord (r2.dropWhile wsChar) with
          | none => none
          | some (isPlural, r4) =>
            match r4.dropWhile wsChar with
            | ',' :: r6 =>
              match r6.getLast? with
              | some d =>
                if d = rbrace then
                  let inner := r6.dropLast
                  let r := inner.dropWhile wsChar
                  if r.isEmpty then
                    match inner.getLast? with
                    | some e => if e = '\n' then none else some (g1, isPlural, [e])
                    | none => none
                  else if r.contains '\n' then none
                  else some (g1, isPlural, r)
                else none
              | none => none
            | _ => none
        | _ => none
    else none

/-- Anchored match of the simple placeholder pattern: an opening brace, a
run without braces, a closing brace; returns the run and the match
length. -/
def placeholderMatch (s : List Char) : Option (List Char × Nat) :=
  match s with
  | [] => none
  | c :: rest =>
    if c = lbrace then
      let content := rest.takeWhile (fun ch => ¬ (ch = lbrace ∨ ch = rbrace))
      match rest.drop content.length with
      | d :: _ => if d = rbrace then some (content, content.length + 2) else none
      | [] => none
    else none

/-- Build the element for a formatted placeholder from its trimmed parts:
number, date and time formats get their own element kinds and any other
format word is folded into the style of a plain argument. -/
def formattedElement (arg word st : String) : Element :=
  if word = "number" then .number arg st
  else if word = "date" then .date arg st
  else if word = "time" then .time arg st
  else .argument arg (if st ≠ "" then word ++ ", " ++ st else word) false

/-- Build the element for a simple placeholder: split the trimmed content
on the first one or two commas. -/
def mkPlaceholderElement (content : List Char) : Element :=
  match splitTwoCommas (goTrim content) with
  | [p0] => .argument (listStr (goTrim p0)) "" false
  | [p0, p1] => formattedElement (listStr (goTrim p0)) (listStr (goTrim p1)) ""
  | [p0, p1, p2] =>
    formattedElement (listStr (goTrim p0)) (listStr (goTrim p1)) (listStr (goTrim p2))
  | _ => .argument "" "" false

/-- Check whether a brace-matched span is wrapped in doubled braces. -/
def isDoubleBraced (fm : List Char) : Bool :=
  List.isPrefixOf [lbrace, lbrace] fm ∧ List.isPrefixOf [rbrace, rbrace] fm.reverse

/-- Build the double-braced argument element from the content between the
doubled braces: everything after the first comma becomes the style. -/
def mkDoubleBrace (content : List Char) : Element :=
  match splitTwoCommas (goTrim content) with
  | [p0] => .argument (listStr (goTrim p0)) "" true
  | [p0, p1] => .argument (listStr (goTrim p0)) (listStr (goTrim p1)) true
  | [p0, p1, p2] =>
    .argument (listStr (goTrim p0)) (listStr (goTrim p1) ++ ", " ++ listStr (goTrim p2)) true
  | _ => .argument "" "" true

/-- Leftmost match of the tag-open pattern: a less-than sign, a non-empty
run without angle brackets or slash, a greater-than sign; returns the
match position and the tag name. -/
def findTagOpen : List Char → Nat → Option (Nat × List Char)
  | [], _ => none
  | c :: rest, t =>
    if c = '<' then
      let name := rest.takeWhile (fun ch => ¬ (ch = '<' ∨ ch = '>' ∨ ch = '/'))
      match rest.drop name.length with
      | d :: _ => if d = '>' ∧ ¬ name.isEmpty then some (t, name) else findTagOpen rest (t + 1)
      | [] => findTagOpen rest (t + 1)
    else findTagOpen rest (t + 1)

/-- Leftmost occurrence of a literal pattern in a character list. -/
def findSub (pat : List Char) : List Char → Nat → Option Nat
  | [], t => if pat.isEmpty then some t else none
  | s@(_ :: rest), t => if List.isPrefixOf pat s then some t else findSub pat rest (t + 1)

/-- Whitespace skipped between options in parseOptions. -/
def optWs (c : Char) : Bool := c = ' ' ∨ c = '\t' ∨ c = '\n'

/-- Characters that do not start any construct: a run of them becomes a
literal element. -/
def ordinaryChar (c : Char) : Bool := ¬ (c = lbrace ∨ c = '<' ∨ c = '#')

/-- Brace-matching scan of parseOptions: starting just past an opening
brace with depth 1, returns the position just past the matching closing
brace, or none when the text ends first. -/
def optBraceScan : Nat → List Char → Nat → Nat → Option Nat
  | 0, _, _, _ => none
  | fuel + 1, t, pos, bd =>
    if pos < t.length ∧ bd > 0 then
      let c := getC t pos
      let bd2 := if c = lbrace then bd + 1 else if c = rbrace then bd - 1 else bd
      optBraceScan fuel t (pos + 1) bd2
    else if bd > 0 then none else some pos

/-- Control state of the parsing recursion: entry into parseMessage, the
scan loop, the continuation after the brace branch, the tag branch, the
pound and literal branch, entry into parseOptions, and the option
scanning loop. -/
inductive PState where
  | msg (m : List Char) (depth : Nat)
  | loop (m : List Char) (depth pos : Nat) (acc : List Element)
  | after (m : List Char) (depth pos : Nat) (acc : List Element) (nested : Bool)
  | tagS (m : List Char) (depth pos : Nat) (acc : List Element)
  | poundS (m : List Char) (depth pos : Nat) (acc : List Element)
  | opts (t : List Char) (depth : Nat)
  | optsLoop (t : List Char) (depth pos : Nat) (acc : List (String × List Element))

/-- Answer of the parsing recursion: an element list (parseMessage), an
option mapping (parseOptions), an error, or a Go runtime panic. -/
inductive PAns where
  | els (l : List Element)
  | opts (os : List (String × List Element))
  | err (m : String)
  | crash

/-- The parsing recursion behind parseMessage and parseOptions of
parser.go.  On the msg state the depth guard fires above depth 100; the
loop state performs the brace branch with its matching-brace scan,
complex-format and double-brace handling; the after state retries the
simple placeholder pattern when the span was not nested or the position
again holds an opening brace; the tag state matches the first tag-open
pattern and its first closing tag and crashes when the Go slice bounds
would be inverted; the pound state emits pound elements and collects
literal runs, advancing by one character on an empty run; the option
states skip whitespace, read a key up to an opening brace, match the
braces of the value (an unbalanced text is an error) and parse the value
recursively. -/
def parseRun : Nat → PState → PAns
  | 0, _ => .crash
  | fuel + 1, .msg m depth =>
    if depth > 100 then .err maxDepthErr
    else parseRun fuel (.loop m depth 0 [])
  | fuel + 1, .loop m depth pos acc =>
    if pos < m.length then
      if getC m pos = lbrace then
        match braceScan (m.length + 1) m (pos + 1) 1 false with
        | (some i, nested) =>
          if nested then
            let fullMatch := sub m pos (i + 1)
            match complexMatch fullMatch with
            | some (g1, isPlural, optsText) =>
              match parseRun fuel (.opts optsText (depth + 1)) with
              | .err e => .err e
              | .crash => .crash
              | .els _ => .crash
              | .opts os =>
                let el := if isPlural then Element.plural (listStr (goTrim g1)) os
                          else Element.select (listStr (goTrim g1)) os
                parseRun fuel (.after m depth (i + 1) (acc ++ [el]) true)
            | none =>
              if isDoubleBraced fullMatch then
                parseRun fuel (.after m depth (i + 1)
                  (acc ++ [mkDoubleBrace ((fullMatch.drop 2).dropLast.dropLast)]) true)
              else parseRun fuel (.after m depth pos acc true)
          else parseRun fuel (.after m depth pos acc false)
        | (none, nested) => parseRun fuel (.after m depth pos acc nested)
      else parseRun fuel (.tagS m depth pos acc)
    else .els acc
  | fuel + 1, .after m depth pos acc nested =>
    if (¬ nested) ∨ (pos < m.length ∧ getC m pos = lbrace) then
      match placeholderMatch (m.drop pos) with
      | some (content, mlen) =>
        parseRun fuel (.loop m depth (pos + mlen) (acc ++ [mkPlaceholderElement content]))
      | none => parseRun fuel (.tagS m depth pos acc)
    else parseRun fuel (.tagS m depth pos acc)
  | fuel + 1, .tagS m depth pos acc =>
    if pos < m.length ∧ getC m pos = '<' then
      match findTagOpen (m.drop pos) 0 with
      | some (t, name) =>
        match findSub ('<' :: '/' :: (name ++ ['>'])) (m.drop pos) 0 with
        | some c =>
          let contentStart := pos + t + name.length + 2
          let contentEnd := pos + c
          if contentStart > contentEnd then .crash
          else
            match parseRun fuel (.msg (sub m contentStart contentEnd) (depth + 1)) with
            | .err e => .err e
            | .crash => .crash
            | .opts _ => .crash
            | .els children =>
              parseRun fuel (.loop m depth (pos + c + name.length + 3)
                (acc ++ [.tag (listStr name) children]))
        | none => parseRun fuel (.poundS m depth pos acc)
      | none => parseRun fuel (.poundS m depth pos acc)
    else parseRun fuel (.poundS m depth pos acc)
  | fuel + 1, .poundS m depth pos acc =>
    if pos < m.length ∧ getC m pos = '#' then
      parseRun fuel (.loop m depth (pos + 1) (acc ++ [.pound]))
    else
      let run := (m.drop pos).takeWhile ordinaryChar
      if run.length > 0 then
        parseRun fuel (.loop m depth (pos + run.length) (acc ++ [.literal (listStr run)]))
      else parseRun fuel (.loop m depth (pos + 1) acc)
  | fuel + 1, .opts t depth => parseRun fuel (.optsLoop t depth 0 [])
  | fuel + 1, .optsLoop t depth pos acc =>
    if pos < t.length then
      let pos1 := pos + ((t.drop pos).takeWhile optWs).length
      if pos1 ≥ t.length then .opts acc
      else
        let keyRun := (t.drop pos1).takeWhile (fun ch => ch ≠ lbrace)
        let pos2 := pos1 + keyRun.length
        if pos2 ≥ t.length then .opts acc
        else
          let key := listStr (goTrim keyRun)
          match optBraceScan (t.length + 1) t (pos2 + 1) 1 with
          | none => .err (unbalancedErr t)
          | some pend =>
            let value := sub t (pos2 + 1) (pend - 1)
            match parseRun fuel (.msg value (depth + 1)) with
            | .err e => .err e
            | .crash => .crash
            | .opts _ => .crash
            | .els els => parseRun fuel (.optsLoop t depth pend (upsert key els acc))
    else .opts acc

/-- Parse an ICU message at the given recursion depth (parser.go
parseMessage). -/
def parseMessage (fuel : Nat) (m : List Char) (depth : Nat) : PRes :=
  match parseRun fuel (.msg m depth) with
  | .els l => .ok l
  | .err e => .err e
  | .opts _ => .crash
  | .crash => .crash

/-- Parse the options part of a plural or select format (parser.go
parseOptions). -/
def parseOptions (fuel : Nat) (t : List Char) (depth : Nat) : ORes :=
  match parseRun fuel (.opts t depth) with
  | .opts os => .ok os
  | .err e => .err e
  | .els _ => .crash
  | .crash => .crash

/-- Fuel supplied to the parser for a message of the given length; it
exceeds the total number of recursive calls any scan of the message can
perform. -/
def parseFuel (n : Nat) : Nat := (n + 2) * (n + 2) * 1024

/-- icu.Parse: parse a message string at depth zero. -/
def icuParse (s : String) : PRes := parseMessage (parseFuel s.length) s.data 0

/-- Value of a document tree entry: a string leaf, a nested object, or
any other JSON value (kept opaque and copied through unchanged). -/
inductive JValue where
  | str (s : String)
  | obj (fields : List (String × JValue))
  | other (tag : Nat)

/-- Size measure of a field list, used as the fuel of the merge
processors; it dominates the number of recursive calls the merge
performs on the tree. -/
def jsize : List (String × JValue) → Nat
  | [] => 1
  | (_, v) :: rest => 1 + go v + jsize rest
where
  go : JValue → Nat
    | .str _ => 1
    | .other _ => 1
    | .obj fs => 1 + jsize fs

/-- Check of the metadata marker: the key is non-empty and starts with
the reserved at sign. -/
def headIsAt (k : String) : Bool :=
  match k.data with
  | c :: _ => c = '@'
  | [] => false

/-- Reuse condition of the merge: a previous entry exists and equals the
source value (Go prevValue == value on a string leaf). -/
def prevMatches (k s : String) (prev : List (String × JValue)) : Bool :=
  match mget k prev with
  | some (.str t) => t = s
  | _ => false

/-- Previous subtree passed to a recursive merge call: the previous
entry when it is a nested object, and an empty tree otherwise. -/
def prevFieldsFor (k : String) (prev : List (String × JValue)) : List (String × JValue) :=
  match mget k prev with
  | some (.obj pf) => pf
  | _ => []

/-- Outcome of a merge call: the processed entries in source order, each
with its translated value and the backend call texts its processing
performed; or the first collected error; or a Go runtime panic. -/
inductive XOut where
  | ok (entries : List (String × JValue × List String))
  | err (m : String)
  | crash

/-- Outcome of processing a single entry. -/
inductive EOut where
  | entry (e : String × JValue × List String)
  | eerr (m : String)
  | ecrash

/-- Combine the outcome of the first entry with the outcome of the rest
of the loop: a panic anywhere crashes the call, otherwise the first
error collected on the error channel is returned at the end, otherwise
the entry joins the result. -/
def combineE : EOut → XOut → XOut
  | .ecrash, _ => .crash
  | .eerr _, .crash => .crash
  | .eerr m, .ok _ => .err m
  | .eerr m, .err _ => .err m
  | .entry e, .ok es => .ok (e :: es)
  | .entry _, .err m => .err m
  | .entry _, .crash => .crash

/-- Result tree of a merge outcome: keys with their translated values. -/
def resTree (es : List (String × JValue × List String)) : List (String × JValue) :=
  es.map (fun e => (e.1, e.2.1))

/-- All backend call texts of a merge outcome. -/
def callsOf (es : List (String × JValue × List String)) : List String :=
  es.foldr (fun e acc => e.2.2 ++ acc) []

/-- Lookup of the processed entry of a key. -/
def mgetE (k : String) : List (String × JValue × List String) → Option (JValue × List String)
  | [] => none
  | e :: rest => if e.1 = k then some e.2 else mgetE k rest

/-- Fields of a nested object value, and an empty list on the other
value kinds (whose merge makes no recursive call and ignores it). -/
def fieldsOf : JValue → List (String × JValue)
  | .obj fs => fs
  | _ => []

/-- Entry processing of the simple merge, given the outcome of the
recursive call on the entry's subtree: metadata keys are copied
unchanged; a string leaf whose previous entry equals the source value is
reused without a backend call, and otherwise the whole string is sent to
the backend, keeping the original text when the call fails; a nested
object takes the subtree outcome, an error being collected for the error
channel; any other value is copied unchanged. -/
def simpleHead (tr : Translator) (frm tgt : String) (k : String) (v : JValue)
    (prev : List (String × JValue)) (subOut : XOut) : EOut :=
  if headIsAt k then .entry (k, v, [])
  else
    match v with
    | .str s =>
      if prevMatches k s prev then .entry (k, .str s, [])
      else
        match tr s frm tgt with
        | .ok t => .entry (k, .str t, [s])
        | .error _ => .entry (k, .str s, [s])
    | .obj _ =>
      match subOut with
      | .ok es => .entry (k, .obj (resTree es), callsOf es)
      | .err m => .eerr ("failed to translate nested object at key '" ++ k ++ "': " ++ m)
      | .crash => .ecrash
    | .other n => .entry (k, .other n, [])

/-- SimpleProcessor.executeInternal. -/
def simpleExec : Nat → Translator → String → String →
    List (String × JValue) → List (String × JValue) → XOut
  | 0, _, _, _, _, _ => .crash
  | _ + 1, _, _, _, [], _ => .ok []
  | fuel + 1, tr, frm, tgt, (k, v) :: rest, prev =>
    combineE
      (simpleHead tr frm tgt k v prev
        (simpleExec fuel tr frm tgt (fieldsOf v) (prevFieldsFor k prev)))
      (simpleExec fuel tr frm tgt rest prev)

/-- Fuel supplied to translateElements for a leaf of the given text. -/
def transFuel (s : String) : Nat := (s.length + 2) * 1024

/-- Entry processing of the AST merge: like the simple merge, except
that a changed string leaf is parsed as an ICU message and translated
structurally; a parse error falls back to whole-string translation, a
failing structural translation keeps the original text, and a parse
panic crashes the call. -/
def astHead (tr : Translator) (frm tgt : String) (k : String) (v : JValue)
    (prev : List (String × JValue)) (subOut : XOut) : EOut :=
  if headIsAt k then .entry (k, v, [])
  else
    match v with
    | .str s =>
      if prevMatches k s prev then .entry (k, .str s, [])
      else
        match icuParse s with
        | .crash => .ecrash
        | .err _ =>
          match tr s frm tgt with
          | .ok t => .entry (k, .str t, [s])
          | .error _ => .entry (k, .str s, [s])
        | .ok ast =>
          match translateElements (transFuel s) tr frm tgt ast with
          | (.ok t, cs) => .entry (k, .str t, cs)
          | (.error _, cs) => .entry (k, .str s, cs)
    | .obj _ =>
      match subOut with
      | .ok es => .entry (k, .obj (resTree es), callsOf es)
      | .err m => .eerr ("failed to translate nested object at key '" ++ k ++ "': " ++ m)
      | .crash => .ecrash
    | .other n => .entry (k, .other n, [])

/-- ASTProcessor.executeInternal. -/
def astExec : Nat → Translator → String → String →
    List (String × JValue) → List (String × JValue) → XOut
  | 0, _, _, _, _, _ => .crash
  | _ + 1, _, _, _, [], _ => .ok []
  | fuel + 1, tr, frm, tgt, (k, v) :: rest, prev =>
    combineE
      (astHead tr frm tgt k v prev
        (astExec fuel tr frm tgt (fieldsOf v) (prevFieldsFor k prev)))
      (astExec fuel tr frm tgt rest prev)

/-- SimpleProcessor.Execute. -/
def simpleExecute (tr : Translator) (frm tgt : String)
    (obj prev : List (String × JValue)) : XOut :=
  simpleExec (jsize obj) tr frm tgt obj prev

/-- ASTProcessor.Execute. -/
def astExecute (tr : Translator) (frm tgt : String)
    (obj prev : List (String × JValue)) : XOut :=
  astExec (jsize obj) tr frm tgt obj prev

/-- Category emission order described by the specification: the fixed
sequence zero, one, two, few, many, other restricted to the present
keys, then the remaining keys in lexicographic order. -/
def specCategoryOrder (keys : List String) : List String :=
  pluralForms.filter (fun f => keys.contains f) ++
    sortStrings (keys.filter (fun k => ¬ pluralForms.contains k))

/-- Select reassembly following the specification wording: the option
categories are emitted in the order of specCategoryOrder. -/
def specSelectEmit (v : String) (transOpts : List (String × String)) : String :=
  "\x7b" ++ v ++ ", select, " ++
    ((specCategoryOrder (transOpts.map Prod.fst)).foldl
      (fun acc k => acc ++ k ++ " \x7b" ++ (mget k transOpts).getD "" ++ "\x7d ") "") ++
    "\x7d"

/-- Specification relation between a source field list and a result
field list: same keys in the same arrangement, metadata entries and
passthrough values copied verbatim, nested objects related recursively,
and only string leaf texts free to differ. -/
inductive TreeMatch : List (String × JValue) → List (String × JValue) → Prop where
  | nil : TreeMatch [] []
  | meta (k : String) (v : JValue) (rest rest' : List (String × JValue)) :
      headIsAt k = true → TreeMatch rest rest' →
      TreeMatch ((k, v) :: rest) ((k, v) :: rest')
  | leaf (k s t : String) (rest rest' : List (String × JValue)) :
      headIsAt k = false → TreeMatch rest rest' →
      TreeMatch ((k, .str s) :: rest) ((k, .str t) :: rest')
  | node (k : String) (xs ys : List (String × JValue)) (rest rest' : List (String × JValue)) :
      headIsAt k = false → TreeMatch xs ys → TreeMatch rest rest' →
      TreeMatch ((k, .obj xs) :: rest) ((k, .obj ys) :: rest')
  | keep (k : String) (n : Nat) (rest rest' : List (String × JValue)) :
      headIsAt k = false → TreeMatch rest rest' →
      TreeMatch ((k, .other n) :: rest) ((k, .other n) :: rest')

/-- Backend used in the concrete examples: it marks every text with the
target-language tag, as the mock translator of the repository tests
does. -/
def frTr : Translator := fun t _ _ => .ok ("[fr] " ++ t)

/-- Source tree of the literal-mode merge example. -/
def c4Source : List (String × JValue) :=
  [("greeting", .str "Hello"), ("farewell", .str "Goodbye")]

/-- Previous tree of the literal-mode merge example. -/
def c4Previous : List (String × JValue) :=
  [("greeting", .str "[fr] Hello"), ("farewell", .str "Different value")]

/-- Two backends that agree at the used locale pair drive the
translation recursion to the same outcome. -/
lemma translateRun_ext (frm tgt : String) (tr tr' : Translator)
    (h : ∀ v, tr v frm tgt = tr' v frm tgt) :
    ∀ fuel x, translateRun fuel tr frm tgt x = translateRun fuel tr' frm tgt x := by
  intro fuel
  induction fuel with
  | zero => intro x; rfl
  | succ n ih =>
    intro x
    match x with
    | .el (.literal v) => simp only [translateRun, h]
    | .el (.tag v cs) => simp only [translateRun, ih]
    | .el (.select v os) => simp only [translateRun, ih]
    | .el (.plural v os) => simp only [translateRun, ih]
    | .el (.argument v st dbl) => rfl
    | .el (.number v st) => rfl
    | .el (.date v st) => rfl
    | .el (.time v st) => rfl
    | .el .pound => rfl
    | .els [] => rfl
    | .els (e :: rest) => simp only [translateRun, ih]
    | .opts wrap [] acc => rfl
    | .opts wrap ((k, els) :: rest) acc => simp only [translateRun, ih]

/-- Backend extensionality for translateElements. -/
lemma translateElements_ext (fuel : Nat) (frm tgt : String) (tr tr' : Translator)
    (h : ∀ v, tr v frm tgt = tr' v frm tgt) (els : List Element) :
    translateElements fuel tr frm tgt els = translateElements fuel tr' frm tgt els := by
  unfold translateElements
  rw [translateRun_ext frm tgt tr tr' h]

/-- Backend extensionality for the entry processing of the simple
merge. -/
lemma simpleHead_ext (frm tgt : String) (tr tr' : Translator)
    (h : ∀ v, tr v frm tgt = tr' v frm tgt) (k : String) (v : JValue)
    (prev : List (String × JValue)) (so : XOut) :
    simpleHead tr frm tgt k v prev so = simpleHead tr' frm tgt k v prev so := by
  cases v <;> simp [simpleHead, h]

/-- Backend extensionality for the simple merge. -/
lemma simpleExec_ext (frm tgt : String) (tr tr' : Translator)
    (h : ∀ v, tr v frm tgt = tr' v frm tgt) :
    ∀ fuel obj prev, simpleExec fuel tr frm tgt obj prev = simpleExec fuel tr' frm tgt obj prev := by
  intro fuel
  induction fuel with
  | zero => intro obj prev; rfl
  | succ n ih =>
    intro obj prev
    match obj with
    | [] => rfl
    | (k, v) :: rest =>
      simp only [simpleExec, ih, simpleHead_ext frm tgt tr tr' h]

/-- Backend extensionality for SimpleProcessor.Execute. -/
lemma simpleExecute_ext (frm tgt : String) (tr tr' : Translator)
    (h : ∀ v, tr v frm tgt = tr' v frm tgt) (obj prev : List (String × JValue)) :
    simpleExecute tr frm tgt obj prev = simpleExecute tr' frm tgt obj prev := by
  unfold simpleExecute
  exact simpleExec_ext frm tgt tr tr' h _ obj prev

/-- C1: structured translation of the example message under a backend
that tags every text renders the two literal segments independently,
keeps the argument placeholder unchanged, and concatenates the segments
with no separator. -/
theorem c1_structured_translation_example (tr : Translator) (frm tgt : String)
    (h : ∀ t, tr t frm tgt = Except.ok ("[fr] " ++ t)) :
    ∃ els, icuParse "Hello, \x7bname\x7d!" = .ok els ∧
      (translateElements 100 tr frm tgt els).1 = .ok "[fr] Hello, \x7bname\x7d[fr] !" := by
  refine ⟨[.literal "Hello, ", .argument "name" "" false, .literal "!"], rfl, ?_⟩
  rw [translateElements_ext 100 frm tgt tr frTr (fun v => h v)]
  rfl

/-- Witness for C1 at the tagging backend and the locale pair en, fr. -/
theorem c1_witness :
    (∀ t, frTr t "en" "fr" = Except.ok ("[fr] " ++ t)) ∧
    (∃ els, icuParse "Hello, \x7bname\x7d!" = .ok els ∧
      (translateElements 100 frTr "en" "fr" els).1 = .ok "[fr] Hello, \x7bname\x7d[fr] !") :=
  ⟨fun _ => rfl, c1_structured_translation_example frTr "en" "fr" (fun _ => rfl)⟩

/-- C4 counterexample: on the literal-mode merge example the code makes
two backend calls, one for each entry, because the previous value of
greeting does not equal its source value; the claimed single call is
refuted. -/
theorem c4_two_calls_counterexample :
    simpleExecute frTr "en" "fr" c4Source c4Previous =
      .ok [("greeting", .str "[fr] Hello", ["Hello"]),
           ("farewell", .str "[fr] Goodbye", ["Goodbye"])] ∧
    ¬ ∃ es, simpleExecute frTr "en" "fr" c4Source c4Previous = .ok es ∧
      (callsOf es).length = 1 := by
  refine ⟨rfl, ?_⟩
  rintro ⟨es, h, hc⟩
  have h2 : XOut.ok [("greeting", JValue.str "[fr] Hello", ["Hello"]),
      ("farewell", JValue.str "[fr] Goodbye", ["Goodbye"])] = XOut.ok es :=
    Eq.trans (by rfl) h
  cases h2
  exact absurd hc (by decide)

/-- C4 amended: the literal-mode merge example returns the claimed
result tree, but with two backend calls: both entries are retranslated,
since reuse requires the previous entry to equal the source entry
exactly and neither previous value does. -/
theorem c4_literal_merge_amended (tr : Translator) (frm tgt : String)
    (h : ∀ t, tr t frm tgt = Except.ok ("[fr] " ++ t)) :
    simpleExecute tr frm tgt c4Source c4Previous =
      .ok [("greeting", .str "[fr] Hello", ["Hello"]),
           ("farewell", .str "[fr] Goodbye", ["Goodbye"])] := by
  rw [simpleExecute_ext frm tgt tr frTr (fun v => h v)]
  rfl

/-- Witness for the amended C4 at the tagging backend. -/
theorem c4_witness :
    (∀ t, frTr t "en" "fr" = Except.ok ("[fr] " ++ t)) ∧
    simpleExecute frTr "en" "fr" c4Source c4Previous =
      .ok [("greeting", .str "[fr] Hello", ["Hello"]),
           ("farewell", .str "[fr] Goodbye", ["Goodbye"])] :=
  ⟨fun _ => rfl, c4_literal_merge_amended frTr "en" "fr" (fun _ => rfl)⟩

/-- C7: on the input where a closing tag precedes the first tag-open
match, icu.Parse neither returns a node sequence nor a depth error: the
Go slice expression for the tag content has inverted bounds and the
parser panics. -/
theorem c7_parse_crash_eval :
    icuParse "</b>x<b>y" = PRes.crash ∧ ¬ ∃ els, icuParse "</b>x<b>y" = PRes.ok els := by
  refine ⟨rfl, ?_⟩
  rintro ⟨els, h⟩
  have h2 : PRes.crash = PRes.ok els := Eq.trans (by rfl) h
  exact PRes.noConfusion h2

/-- C10: on a tree whose leaf makes icu.Parse panic, ASTProcessor
Execute crashes instead of returning a result tree with nil error,
whatever the backend does. -/
theorem c10_exec_crash_eval (tr : Translator) :
    astExecute tr "en" "fr" [("k", .str "</b>x<b>y")] [] = XOut.crash := rfl

/-- C3 counterexample: the reassembly of a select format by
translateElement emits all categories in lexicographic order, so the
category many precedes zero, while the claimed fixed sequence puts zero
first; the produced string differs from the fixed-order reassembly. -/
theorem c3_select_order_counterexample :
    (translateElement 50 frTr "en" "fr"
      (.select "x" [("zero", [.literal "a"]), ("many", [.literal "b"])])).1 =
      .ok "\x7bx, select, many \x7b[fr] b\x7d zero \x7b[fr] a\x7d \x7d" ∧
    specSelectEmit "x" [("zero", "[fr] a"), ("many", "[fr] b")] =
      "\x7bx, select, zero \x7b[fr] a\x7d many \x7b[fr] b\x7d \x7d" ∧
    "\x7bx, select, many \x7b[fr] b\x7d zero \x7b[fr] a\x7d \x7d" ≠
      "\x7bx, select, zero \x7b[fr] a\x7d many \x7b[fr] b\x7d \x7d" := by
  refine ⟨rfl, rfl, ?_⟩
  decide

/-- A take-while over a list all of whose members satisfy the predicate
returns the whole list. -/
lemma takeWhile_of_all (p : Char → Bool) :
    ∀ (l : List Char), (∀ c ∈ l, p c = true) → l.takeWhile p = l
  | [], _ => rfl
  | c :: cs, h => by
    simp only [List.takeWhile_cons, h c (by simp)]
    simp [takeWhile_of_all p cs (fun d hd => h d (by simp [hd]))]

/-- Membership of the indexed character. -/
lemma getC_mem (l : List Char) (i : Nat) (h : i < l.length) : getC l i ∈ l := by
  unfold getC
  rw [l.getD_eq_getElem ' ' h]
  exact l.getElem_mem h

/-- Evaluation of the scan loop on a message whose characters are all
ordinary: one literal run consumes the whole message. -/
lemma parseRun_no_special (k : Nat) (m : List Char) (hm : 0 < m.length)
    (h : ∀ c ∈ m, ordinaryChar c = true) :
    parseRun (k + 4) (.loop m 0 0 []) = .els [.literal (listStr m)] := by
  have hmem := getC_mem m 0 hm
  have hord := h _ hmem
  have hnl : ¬ getC m 0 = lbrace := by
    intro hc
    simp [ordinaryChar, hc] at hord
  have hnt : ¬ getC m 0 = '<' := by
    intro hc
    simp [ordinaryChar, hc] at hord
  have hnp : ¬ getC m 0 = '#' := by
    intro hc
    simp [ordinaryChar, hc] at hord
  have e1 : parseRun (k + 4) (.loop m 0 0 []) = parseRun (k + 3) (.tagS m 0 0 []) := by
    simp only [parseRun]
    rw [if_pos hm, if_neg hnl]
  have e2 : parseRun (k + 3) (.tagS m 0 0 []) = parseRun (k + 2) (.poundS m 0 0 []) := by
    simp only [parseRun]
    rw [if_neg (fun hcon => hnt hcon.2)]
  have e3 : parseRun (k + 2) (.poundS m 0 0 []) =
      parseRun (k + 1) (.loop m 0 m.length [.literal (listStr m)]) := by
    simp only [parseRun]
    rw [if_neg (fun hcon => hnp hcon.2)]
    simp only [List.drop_zero, takeWhile_of_all _ m h]
    rw [if_pos hm]
    simp
  have e4 : parseRun (k + 1) (.loop m 0 m.length [.literal (listStr m)]) =
      .els [.literal (listStr m)] := by
    simp only [parseRun]
    rw [if_neg (lt_irrefl m.length)]
  exact ((e1.trans e2).trans e3).trans e4

/-- C9 amended: a non-empty run of ordinary characters is emitted as one
literal node reproducing the input, but a special character that opens no
construct is skipped and lost, so rendering the parse of the example
drops the unmatched opening brace. -/
theorem c9_literal_degradation_amended :
    (∀ s : String, s.data ≠ [] → (∀ c ∈ s.data, ordinaryChar c = true) →
      icuParse s = .ok [.literal s]) ∧
    icuParse "a\x7bb" = .ok [.literal "a", .literal "b"] ∧
    elementsString 50 [.literal "a", .literal "b"] = "ab" := by
  refine ⟨?_, rfl, rfl⟩
  intro s hne h
  have hm : 0 < s.data.length := List.length_pos.mpr hne
  have h5 : 5 ≤ parseFuel s.length := by
    have h4 : 2 * 2 ≤ (s.length + 2) * (s.length + 2) :=
      Nat.mul_le_mul (by omega) (by omega)
    calc 5 ≤ 2 * 2 * 1024 := by norm_num
    _ ≤ (s.length + 2) * (s.length + 2) * 1024 := Nat.mul_le_mul_right 1024 h4
    _ = parseFuel s.length := rfl
  obtain ⟨k, hk⟩ : ∃ k, parseFuel s.length = k + 5 := ⟨parseFuel s.length - 5, by omega⟩
  unfold icuParse parseMessage
  rw [hk]
  have estep : parseRun (k + 5) (.msg s.data 0) = parseRun (k + 4) (.loop s.data 0 0 []) := by
    simp only [parseRun]
    rw [if_neg (by omega)]
  rw [estep, parseRun_no_special k s.data hm h]
  rfl

/-- Witness for the amended C9 on a concrete ordinary string. -/
theorem c9_witness :
    ("plain".data ≠ [] ∧ (∀ c ∈ "plain".data, ordinaryChar c = true)) ∧
    icuParse "plain" = .ok [.literal "plain"] :=
  ⟨⟨by decide, by decide⟩,
    c9_literal_degradation_amended.1 "plain" (by decide) (by decide)⟩

/-- C9 counterexample: rendering the parse of the example input does not
reproduce it, the unmatched opening brace is dropped. -/
theorem c9_drop_counterexample :
    elementsString 50 ((fun r => match r with | PRes.ok els => els | _ => []) (icuParse "a\x7bb")) =
      "ab" ∧ "ab" ≠ "a\x7bb" := ⟨rfl, by decide⟩

/-- Error check on a translation result. -/
def TRes.isErr : TRes → Bool
  | .err _ => true
  | .str _ => false
  | .opts _ => false

/-- Literal-segment input corresponding to a translation input. -/
def sinOf : TIn → SIn
  | .el e => .el e
  | .els l => .els l
  | .opts _ os _ => .opts os

/-- On every run that does not end in an error, the texts passed to the
backend are exactly the non-empty literal segments of the input, in
order. -/
lemma translateRun_calls (tr : Translator) (frm tgt : String) :
    ∀ fuel x, (translateRun fuel tr frm tgt x).1.isErr = false →
      (translateRun fuel tr frm tgt x).2 = segsRun fuel (sinOf x) := by
  intro fuel
  induction fuel with
  | zero => intro x h; simp [translateRun, TRes.isErr] at h
  | succ n ih =>
    intro x
    match x with
    | .el (.literal v) =>
      intro _
      by_cases hv : v = ""
      · simp [translateRun, segsRun, sinOf, hv]
      · rcases htr : tr v frm tgt with t | m
        · simp [translateRun, segsRun, sinOf, hv, htr]
        · simp [translateRun, segsRun, sinOf, hv, htr]
    | .el (.tag v cs) =>
      rcases h1 : translateRun n tr frm tgt (.els cs) with ⟨a1, c1⟩
      match a1 with
      | .str s =>
        intro _
        have := ih (.els cs) (by rw [h1]; rfl)
        simp only [translateRun, h1, segsRun, sinOf]
        rw [h1] at this
        exact this
      | .err m => intro hc; simp [translateRun, h1, TRes.isErr] at hc
      | .opts os => intro hc; simp [translateRun, h1, TRes.isErr] at hc
    | .el (.select v os) =>
      rcases h1 : translateRun n tr frm tgt (.opts "failed to translate select option: " os []) with ⟨a1, c1⟩
      match a1 with
      | .opts tos =>
        intro _
        have := ih (.opts "failed to translate select option: " os []) (by rw [h1]; rfl)
        simp only [translateRun, h1, segsRun, sinOf]
        rw [h1] at this
        exact this
      | .err m => intro hc; simp [translateRun, h1, TRes.isErr] at hc
      | .str s => intro hc; simp [translateRun, h1, TRes.isErr] at hc
    | .el (.plural v os) =>
      rcases h1 : translateRun n tr frm tgt (.opts "failed to translate plural option: " os []) with ⟨a1, c1⟩
      match a1 with
      | .opts tos =>
        intro _
        have := ih (.opts "failed to translate plural option: " os []) (by rw [h1]; rfl)
        simp only [translateRun, h1, segsRun, sinOf]
        rw [h1] at this
        exact this
      | .err m => intro hc; simp [translateRun, h1, TRes.isErr] at hc
      | .str s => intro hc; simp [translateRun, h1, TRes.isErr] at hc
    | .el (.argument v st dbl) => intro _; simp [translateRun, segsRun, sinOf]
    | .el (.number v st) => intro _; simp [translateRun, segsRun, sinOf]
    | .el (.date v st) => intro _; simp [translateRun, segsRun, sinOf]
    | .el (.time v st) => intro _; simp [translateRun, segsRun, sinOf]
    | .el .pound => intro _; simp [translateRun, segsRun, sinOf]
    | .els [] => intro _; simp [translateRun, segsRun, sinOf]
    | .els (e :: rest) =>
      rcases h1 : translateRun n tr frm tgt (.el e) with ⟨a1, c1⟩
      match a1 with
      | .err m => intro hc; simp [translateRun, h1, TRes.isErr] at hc
      | .opts os => intro hc; simp [translateRun, h1, TRes.isErr] at hc
      | .str s =>
        rcases h2 : translateRun n tr frm tgt (.els rest) with ⟨a2, c2⟩
        have e1 := ih (.el e) (by rw [h1]; rfl)
        rw [h1] at e1
        match a2 with
        | .err m => intro hc; simp [translateRun, h1, h2, TRes.isErr] at hc
        | .opts os => intro hc; simp [translateRun, h1, h2, TRes.isErr] at hc
        | .str s2 =>
          intro _
          have e2 := ih (.els rest) (by rw [h2]; rfl)
          rw [h2] at e2
          simp only [translateRun, h1, h2, segsRun, sinOf]
          simp [sinOf] at e1 e2
          rw [e1, e2]
    | .opts wrap [] acc => intro _; simp [translateRun, segsRun, sinOf]
    | .opts wrap ((k, els) :: rest) acc =>
      rcases h1 : translateRun n tr frm tgt (.els els) with ⟨a1, c1⟩
      match a1 with
      | .err m => intro hc; simp [translateRun, h1, TRes.isErr] at hc
      | .opts os => intro hc; simp [translateRun, h1, TRes.isErr] at hc
      | .str t =>
        rcases h2 : translateRun n tr frm tgt (.opts wrap rest (upsert k t acc)) with ⟨a2, c2⟩
        intro hc
        have e1 := ih (.els els) (by rw [h1]; rfl)
        rw [h1] at e1
        have hne : a2.isErr = false := by
          simp only [translateRun, h1, h2] at hc
          exact hc
        have e2 := ih (.opts wrap rest (upsert k t acc)) (by rw [h2]; exact hne)
        rw [h2] at e2
        simp only [translateRun, h1, h2, segsRun, sinOf]
        simp [sinOf] at e1 e2
        rw [e1, e2]

/-- Two backends that agree on all non-empty literal segments of the
input drive the translation recursion to the same outcome. -/
lemma translateRun_agree (frm tgt : String) (tr tr' : Translator) :
    ∀ fuel x, (∀ u ∈ segsRun fuel (sinOf x), tr u frm tgt = tr' u frm tgt) →
      translateRun fuel tr frm tgt x = translateRun fuel tr' frm tgt x := by
  intro fuel
  induction fuel with
  | zero => intro x _; rfl
  | succ n ih =>
    intro x h
    match x with
    | .el (.literal v) =>
      by_cases hv : v = ""
      · simp [translateRun, hv]
      · have hvv := h v (by simp [segsRun, sinOf, hv])
        simp [translateRun, hv, hvv]
    | .el (.tag v cs) =>
      have e1 := ih (.els cs) (by intro u hu; exact h u (by simpa [segsRun, sinOf] using hu))
      simp only [translateRun]
      rw [e1]
    | .el (.select v os) =>
      have e1 := ih (.opts "failed to translate select option: " os [])
        (by intro u hu; exact h u (by simpa [segsRun, sinOf] using hu))
      simp only [translateRun]
      rw [e1]
    | .el (.plural v os) =>
      have e1 := ih (.opts "failed to translate plural option: " os [])
        (by intro u hu; exact h u (by simpa [segsRun, sinOf] using hu))
      simp only [translateRun]
      rw [e1]
    | .el (.argument v st dbl) => rfl
    | .el (.number v st) => rfl
    | .el (.date v st) => rfl
    | .el (.time v st) => rfl
    | .el .pound => rfl
    | .els [] => rfl
    | .els (e :: rest) =>
      have e1 := ih (.el e)
        (by intro u hu; refine h u ?_; simp only [segsRun, sinOf] at hu ⊢
            exact List.mem_append.mpr (Or.inl hu))
      have e2 := ih (.els rest)
        (by intro u hu; refine h u ?_; simp only [segsRun, sinOf] at hu ⊢
            exact List.mem_append.mpr (Or.inr hu))
      simp only [translateRun]
      rw [e1, e2]
    | .opts wrap [] acc => rfl
    | .opts wrap ((k, els) :: rest) acc =>
      have e1 := ih (.els els)
        (by intro u hu; refine h u ?_; simp only [segsRun, sinOf] at hu ⊢
            exact List.mem_append.mpr (Or.inl hu))
      have e2 : ∀ t, translateRun n tr frm tgt (.opts wrap rest (upsert k t acc)) =
          translateRun n tr' frm tgt (.opts wrap rest (upsert k t acc)) := by
        intro t
        exact ih (.opts wrap rest (upsert k t acc))
          (by intro u hu; refine h u ?_; simp only [segsRun, sinOf] at hu ⊢
              exact List.mem_append.mpr (Or.inr hu))
      simp only [translateRun]
      rw [e1]
      rcases translateRun n tr' frm tgt (.els els) with ⟨a1, c1⟩
      match a1 with
      | .err m => rfl
      | .opts os => rfl
      | .str t =>
        dsimp only
        rw [e2 t]

/-- C2: translateElements invokes the backend exactly on the non-empty
literal segment values of the elements, in order, including literal
descendants of tag, plural and select branches; in particular two
backends that agree on those texts produce identical output, and on a
successful run the backend call list equals the list of non-empty
literal segments. -/
theorem c2_backend_literal_calls (fuel : Nat) (tr tr' : Translator) (frm tgt : String)
    (els : List Element) :
    ((∀ u ∈ litSegs fuel els, tr u frm tgt = tr' u frm tgt) →
      translateElements fuel tr frm tgt els = translateElements fuel tr' frm tgt els) ∧
    (∀ s, (translateElements fuel tr frm tgt els).1 = .ok s →
      (translateElements fuel tr frm tgt els).2 = litSegs fuel els) := by
  constructor
  · intro h
    unfold translateElements
    rw [translateRun_agree frm tgt tr tr' fuel (.els els) (by simpa [sinOf, litSegs] using h)]
  · intro s hs
    unfold translateElements at hs ⊢
    rcases h1 : translateRun fuel tr frm tgt (.els els) with ⟨a1, c1⟩
    rw [h1] at hs
    match a1, hs with
    | .str s, _ =>
      have := translateRun_calls tr frm tgt fuel (.els els) (by rw [h1]; rfl)
      rw [h1] at this
      simpa [sinOf, litSegs] using this

/-- Inversion of combineE on a successful outcome: the entry succeeded,
the rest succeeded, and the results join. -/
lemma combineE_ok_inv {ho : EOut} {ro : XOut} {es : List (String × JValue × List String)}
    (h : combineE ho ro = .ok es) :
    ∃ e es', ho = .entry e ∧ ro = .ok es' ∧ es = e :: es' := by
  cases ho with
  | entry e =>
    cases ro with
    | ok es' =>
      refine ⟨e, es', rfl, rfl, ?_⟩
      simpa [combineE] using h.symm
    | err m => simp [combineE] at h
    | crash => simp [combineE] at h
  | eerr m => cases ro <;> simp [combineE] at h
  | ecrash => simp [combineE] at h

/-- A processed entry carries the key of its source entry (simple
merge). -/
lemma simpleHead_key {tr : Translator} {frm tgt k : String} {v : JValue}
    {prev : List (String × JValue)} {so : XOut} {e : String × JValue × List String}
    (h : simpleHead tr frm tgt k v prev so = .entry e) : e.1 = k := by
  unfold simpleHead at h
  by_cases hm : headIsAt k = true
  · rw [if_pos hm] at h; cases h; rfl
  · rw [if_neg hm] at h
    cases v with
    | str s =>
      dsimp only at h
      by_cases hp : prevMatches k s prev = true
      · rw [if_pos hp] at h; cases h; rfl
      · rw [if_neg hp] at h
        rcases htr : tr s frm tgt with t | m <;> rw [htr] at h <;>
          dsimp only at h <;> cases h <;> rfl
    | obj fs =>
      dsimp only at h
      cases so <;> dsimp only at h <;> cases h <;> rfl
    | other n => dsimp only at h; cases h; rfl

/-- A processed entry carries the key of its source entry (AST merge). -/
lemma astHead_key {tr : Translator} {frm tgt k : String} {v : JValue}
    {prev : List (String × JValue)} {so : XOut} {e : String × JValue × List String}
    (h : astHead tr frm tgt k v prev so = .entry e) : e.1 = k := by
  unfold astHead at h
  by_cases hm : headIsAt k = true
  · rw [if_pos hm] at h; cases h; rfl
  · rw [if_neg hm] at h
    cases v with
    | str s =>
      dsimp only at h
      by_cases hp : prevMatches k s prev = true
      · rw [if_pos hp] at h; cases h; rfl
      · rw [if_neg hp] at h
        rcases hps : icuParse s with ast | m <;> rw [hps] at h <;> dsimp only at h
        · rcases ht : translateElements (transFuel s) tr frm tgt ast with ⟨a1, c1⟩
          rw [ht] at h
          rcases a1 with t | m <;> dsimp only at h <;> cases h <;> rfl
        · rcases htr : tr s frm tgt with t | m2 <;> rw [htr] at h <;>
            dsimp only at h <;> cases h <;> rfl
        · cases h
    | obj fs =>
      dsimp only at h
      cases so <;> dsimp only at h <;> cases h <;> rfl
    | other n => dsimp only at h; cases h; rfl

/-- A metadata entry is copied verbatim with no backend call (simple
merge). -/
lemma simpleHead_meta {tr : Translator} {frm tgt k : String} {v : JValue}
    {prev : List (String × JValue)} {so : XOut} {e : String × JValue × List String}
    (hm : headIsAt k = true) (h : simpleHead tr frm tgt k v prev so = .entry e) :
    e = (k, v, []) := by
  unfold simpleHead at h
  rw [if_pos hm] at h
  cases h
  rfl

/-- A metadata entry is copied verbatim with no backend call (AST
merge). -/
lemma astHead_meta {tr : Translator} {frm tgt k : String} {v : JValue}
    {prev : List (String × JValue)} {so : XOut} {e : String × JValue × List String}
    (hm : headIsAt k = true) (h : astHead tr frm tgt k v prev so = .entry e) :
    e = (k, v, []) := by
  unfold astHead at h
  rw [if_pos hm] at h
  cases h
  rfl

/-- A processed string leaf stores a string (simple merge). -/
lemma simpleHead_str {tr : Translator} {frm tgt k s : String}
    {prev : List (String × JValue)} {so : XOut} {e : String × JValue × List String}
    (hm : headIsAt k = false) (h : simpleHead tr frm tgt k (.str s) prev so = .entry e) :
    ∃ t cs, e = (k, JValue.str t, cs) := by
  unfold simpleHead at h
  rw [if_neg (by simp [hm])] at h
  dsimp only at h
  by_cases hp : prevMatches k s prev = true
  · rw [if_pos hp] at h; cases h; exact ⟨_, _, rfl⟩
  · rw [if_neg hp] at h
    rcases htr : tr s frm tgt with t | m <;> rw [htr] at h <;>
      dsimp only at h <;> cases h <;> exact ⟨_, _, rfl⟩

/-- A processed string leaf stores a string (AST merge). -/
lemma astHead_str {tr : Translator} {frm tgt k s : String}
    {prev : List (String × JValue)} {so : XOut} {e : String × JValue × List String}
    (hm : headIsAt k = false) (h : astHead tr frm tgt k (.str s) prev so = .entry e) :
    ∃ t cs, e = (k, JValue.str t, cs) := by
  unfold astHead at h
  rw [if_neg (by simp [hm])] at h
  dsimp only at h
  by_cases hp : prevMatches k s prev = true
  · rw [if_pos hp] at h; cases h; exact ⟨_, _, rfl⟩
  · rw [if_neg hp] at h
    rcases hps : icuParse s with ast | m <;> rw [hps] at h <;> dsimp only at h
    · rcases ht : translateElements (transFuel s) tr frm tgt ast with ⟨a1, c1⟩
      rw [ht] at h
      rcases a1 with t | m <;> dsimp only at h <;> cases h <;> exact ⟨_, _, rfl⟩
    · rcases htr : tr s frm tgt with t | m2 <;> rw [htr] at h <;>
        dsimp only at h <;> cases h <;> exact ⟨_, _, rfl⟩
    · cases h

/-- A processed subtree entry comes from a successful recursive call and
stores its result tree (simple merge). -/
lemma simpleHead_obj {tr : Translator} {frm tgt k : String} {fs : List (String × JValue)}
    {prev : List (String × JValue)} {so : XOut} {e : String × JValue × List String}
    (hm : headIsAt k = false) (h : simpleHead tr frm tgt k (.obj fs) prev so = .entry e) :
    ∃ nes, so = .ok nes ∧ e = (k, JValue.obj (resTree nes), callsOf nes) := by
  unfold simpleHead at h
  rw [if_neg (by simp [hm])] at h
  dsimp only at h
  cases so with
  | ok nes => cases h; exact ⟨nes, rfl, rfl⟩
  | err m => cases h
  | crash => cases h

/-- A processed subtree entry comes from a successful recursive call and
stores its result tree (AST merge). -/
lemma astHead_obj {tr : Translator} {frm tgt k : String} {fs : List (String × JValue)}
    {prev : List (String × JValue)} {so : XOut} {e : String × JValue × List String}
    (hm : headIsAt k = false) (h : astHead tr frm tgt k (.obj fs) prev so = .entry e) :
    ∃ nes, so = .ok nes ∧ e = (k, JValue.obj (resTree nes), callsOf nes) := by
  unfold astHead at h
  rw [if_neg (by simp [hm])] at h
  dsimp only at h
  cases so with
  | ok nes => cases h; exact ⟨nes, rfl, rfl⟩
  | err m => cases h
  | crash => cases h

/-- A passthrough entry is copied verbatim with no backend call (simple
merge). -/
lemma simpleHead_other {tr : Translator} {frm tgt k : String} {n : Nat}
    {prev : List (String × JValue)} {so : XOut} {e : String × JValue × List String}
    (hm : headIsAt k = false) (h : simpleHead tr frm tgt k (.other n) prev so = .entry e) :
    e = (k, JValue.other n, []) := by
  unfold simpleHead at h
  rw [if_neg (by simp [hm])] at h
  cases h
  rfl

/-- A passthrough entry is copied verbatim with no backend call (AST
merge). -/
lemma astHead_other {tr : Translator} {frm tgt k : String} {n : Nat}
    {prev : List (String × JValue)} {so : XOut} {e : String × JValue × List String}
    (hm : headIsAt k = false) (h : astHead tr frm tgt k (.other n) prev so = .entry e) :
    e = (k, JValue.other n, []) := by
  unfold astHead at h
  rw [if_neg (by simp [hm])] at h
  cases h
  rfl

/-- An entry whose previous value equals its source string is reused
with no backend call (simple merge). -/
lemma simpleHead_reuse {tr : Translator} {frm tgt k s : String}
    {prev : List (String × JValue)} {so : XOut} {e : String × JValue × List String}
    (hprev : mget k prev = some (.str s))
    (h : simpleHead tr frm tgt k (.str s) prev so = .entry e) :
    e = (k, JValue.str s, []) := by
  by_cases hm : headIsAt k = true
  · exact simpleHead_meta hm h
  · have hpm : prevMatches k s prev = true := by simp [prevMatches, hprev]
    unfold simpleHead at h
    rw [if_neg hm] at h
    dsimp only at h
    rw [if_pos hpm] at h
    cases h
    rfl

/-- An entry whose previous value equals its source string is reused
with no backend call (AST merge). -/
lemma astHead_reuse {tr : Translator} {frm tgt k s : String}
    {prev : List (String × JValue)} {so : XOut} {e : String × JValue × List String}
    (hprev : mget k prev = some (.str s))
    (h : astHead tr frm tgt k (.str s) prev so = .entry e) :
    e = (k, JValue.str s, []) := by
  by_cases hm : headIsAt k = true
  · exact astHead_meta hm h
  · have hpm : prevMatches k s prev = true := by simp [prevMatches, hprev]
    unfold astHead at h
    rw [if_neg hm] at h
    dsimp only at h
    rw [if_pos hpm] at h
    cases h
    rfl

/-- Reuse property of the simple merge at any fuel. -/
lemma simpleExec_reuse (tr : Translator) (frm tgt k s : String) :
    ∀ fuel obj prev es, mget k obj = some (.str s) → mget k prev = some (.str s) →
      simpleExec fuel tr frm tgt obj prev = .ok es → mgetE k es = some (.str s, []) := by
  intro fuel
  induction fuel with
  | zero => intro obj prev es _ _ h; simp [simpleExec] at h
  | succ n ih =>
    intro obj prev es hobj hprev hex
    match obj with
    | [] => simp [mget] at hobj
    | (k', v) :: rest =>
      simp only [simpleExec] at hex
      obtain ⟨e, es', hhead, hrest, rfl⟩ := combineE_ok_inv hex
      by_cases hk : k' = k
      · subst hk
        have hv : v = JValue.str s := by simpa [mget] using hobj
        subst hv
        have he := simpleHead_reuse hprev hhead
        subst he
        simp [mgetE]
      · have hobj' : mget k rest = some (.str s) := by simpa [mget, hk] using hobj
        have hrec := ih rest prev es' hobj' hprev hrest
        have hek : e.1 = k' := simpleHead_key hhead
        simp [mgetE, hek, hk, hrec]

/-- Reuse property of the AST merge at any fuel. -/
lemma astExec_reuse (tr : Translator) (frm tgt k s : String) :
    ∀ fuel obj prev es, mget k obj = some (.str s) → mget k prev = some (.str s) →
      astExec fuel tr frm tgt obj prev = .ok es → mgetE k es = some (.str s, []) := by
  intro fuel
  induction fuel with
  | zero => intro obj prev es _ _ h; simp [astExec] at h
  | succ n ih =>
    intro obj prev es hobj hprev hex
    match obj with
    | [] => simp [mget] at hobj
    | (k', v) :: rest =>
      simp only [astExec] at hex
      obtain ⟨e, es', hhead, hrest, rfl⟩ := combineE_ok_inv hex
      by_cases hk : k' = k
      · subst hk
        have hv : v = JValue.str s := by simpa [mget] using hobj
        subst hv
        have he := astHead_reuse hprev hhead
        subst he
        simp [mgetE]
      · have hobj' : mget k rest = some (.str s) := by simpa [mget, hk] using hobj
        have hrec := ih rest prev es' hobj' hprev hrest
        have hek : e.1 = k' := astHead_key hhead
        simp [mgetE, hek, hk, hrec]

/-- C5: a string leaf whose previous entry equals its source entry is
stored unchanged from the previous tree with zero backend calls for that
key, in both the literal-mode and the structured-mode merge. -/
theorem c5_reuse_equal_leaf (tr : Translator) (frm tgt : String)
    (obj prev : List (String × JValue)) (k s : String)
    (hobj : mget k obj = some (.str s)) (hprev : mget k prev = some (.str s)) :
    (∀ es, simpleExecute tr frm tgt obj prev = .ok es → mgetE k es = some (.str s, [])) ∧
    (∀ es, astExecute tr frm tgt obj prev = .ok es → mgetE k es = some (.str s, [])) :=
  ⟨fun es h => simpleExec_reuse tr frm tgt k s (jsize obj) obj prev es hobj hprev h,
   fun es h => astExec_reuse tr frm tgt k s (jsize obj) obj prev es hobj hprev h⟩

/-- Witness for C5 on a one-leaf tree whose previous entry equals the
source, under a backend that would tag the text if called. -/
theorem c5_witness :
    (mget "a" [("a", JValue.str "x")] = some (.str "x") ∧
      mget "a" [("a", JValue.str "x")] = some (.str "x")) ∧
    mgetE "a" [("a", JValue.str "x", [])] = some (JValue.str "x", []) :=
  ⟨⟨rfl, rfl⟩,
    (c5_reuse_equal_leaf frTr "en" "fr" [("a", .str "x")] [("a", .str "x")] "a" "x" rfl rfl).1
      [("a", JValue.str "x", [])] rfl⟩

/-- Shape preservation of the simple merge at any fuel. -/
lemma simpleExec_shape (tr : Translator) (frm tgt : String) :
    ∀ fuel obj prev es, simpleExec fuel tr frm tgt obj prev = .ok es →
      TreeMatch obj (resTree es) := by
  intro fuel
  induction fuel with
  | zero => intro obj prev es h; simp [simpleExec] at h
  | succ n ih =>
    intro obj prev es h
    match obj with
    | [] =>
      simp only [simpleExec, XOut.ok.injEq] at h
      rw [← h]
      exact TreeMatch.nil
    | (k, v) :: rest =>
      simp only [simpleExec] at h
      obtain ⟨e, es', hhead, hrest, rfl⟩ := combineE_ok_inv h
      have hrm := ih rest prev es' hrest
      by_cases hm : headIsAt k = true
      · obtain rfl := simpleHead_meta hm hhead
        exact TreeMatch.meta k v rest (resTree es') hm hrm
      · have hmF : headIsAt k = false := by simpa using hm
        cases v with
        | str s =>
          obtain ⟨t, cs, rfl⟩ := simpleHead_str hmF hhead
          exact TreeMatch.leaf k s t rest (resTree es') hmF hrm
        | obj fs =>
          obtain ⟨nes, hsub, rfl⟩ := simpleHead_obj hmF hhead
          have hin := ih (fieldsOf (.obj fs)) (prevFieldsFor k prev) nes hsub
          exact TreeMatch.node k fs (resTree nes) rest (resTree es') hmF hin hrm
        | other m =>
          obtain rfl := simpleHead_other hmF hhead
          exact TreeMatch.keep k m rest (resTree es') hmF hrm

/-- Shape preservation of the AST merge at any fuel. -/
lemma astExec_shape (tr : Translator) (frm tgt : String) :
    ∀ fuel obj prev es, astExec fuel tr frm tgt obj prev = .ok es →
      TreeMatch obj (resTree es) := by
  intro fuel
  induction fuel with
  | zero => intro obj prev es h; simp [astExec] at h
  | succ n ih =>
    intro obj prev es h
    match obj with
    | [] =>
      simp only [astExec, XOut.ok.injEq] at h
      rw [← h]
      exact TreeMatch.nil
    | (k, v) :: rest =>
      simp only [astExec] at h
      obtain ⟨e, es', hhead, hrest, rfl⟩ := combineE_ok_inv h
      have hrm := ih rest prev es' hrest
      by_cases hm : headIsAt k = true
      · obtain rfl := astHead_meta hm hhead
        exact TreeMatch.meta k v rest (resTree es') hm hrm
      · have hmF : headIsAt k = false := by simpa using hm
        cases v with
        | str s =>
          obtain ⟨t, cs, rfl⟩ := astHead_str hmF hhead
          exact TreeMatch.leaf k s t rest (resTree es') hmF hrm
        | obj fs =>
          obtain ⟨nes, hsub, rfl⟩ := astHead_obj hmF hhead
          have hin := ih (fieldsOf (.obj fs)) (prevFieldsFor k prev) nes hsub
          exact TreeMatch.node k fs (resTree nes) rest (resTree es') hmF hin hrm
        | other m =>
          obtain rfl := astHead_other hmF hhead
          exact TreeMatch.keep k m rest (resTree es') hmF hrm

/-- C8: every result tree either merge returns is related to its source
tree by TreeMatch: same keys in the same arrangement and the same
nesting shape, metadata keys and passthrough values copied verbatim
whatever the backend does, and only string leaf texts free to differ. -/
theorem c8_shape_invariant (tr : Translator) (frm tgt : String)
    (obj prev : List (String × JValue)) :
    (∀ es, simpleExecute tr frm tgt obj prev = .ok es → TreeMatch obj (resTree es)) ∧
    (∀ es, astExecute tr frm tgt obj prev = .ok es → TreeMatch obj (resTree es)) :=
  ⟨fun es h => simpleExec_shape tr frm tgt (jsize obj) obj prev es h,
   fun es h => astExec_shape tr frm tgt (jsize obj) obj prev es h⟩

/-- Witness for C8 on a tree with a metadata key, a passthrough value, a
string leaf and a nested subtree, under a backend that fails on every
call. -/
theorem c8_witness :
    simpleExecute (fun _ _ _ => .error "boom") "en" "fr"
      [("@meta", JValue.str "m"), ("n", JValue.other 7), ("t", JValue.str "x"),
       ("sub", JValue.obj [("in", JValue.str "y")])] [] =
      .ok [("@meta", JValue.str "m", []), ("n", JValue.other 7, []),
           ("t", JValue.str "x", ["x"]),
           ("sub", JValue.obj [("in", JValue.str "y")], ["y"])] ∧
    TreeMatch
      [("@meta", JValue.str "m"), ("n", JValue.other 7), ("t", JValue.str "x"),
       ("sub", JValue.obj [("in", JValue.str "y")])]
      (resTree [("@meta", JValue.str "m", []), ("n", JValue.other 7, []),
           ("t", JValue.str "x", ["x"]),
           ("sub", JValue.obj [("in", JValue.str "y")], ["y"])]) :=
  ⟨rfl,
    (c8_shape_invariant (fun _ _ _ => .error "boom") "en" "fr"
      [("@meta", JValue.str "m"), ("n", JValue.other 7), ("t", JValue.str "x"),
       ("sub", JValue.obj [("in", JValue.str "y")])] []).1 _ rfl⟩

/-- Appending the empty string is the identity. -/
lemma str_append_empty (t : String) : t ++ "" = t := by
  obtain ⟨d⟩ := t
  show String.mk (d ++ []) = String.mk d
  rw [List.append_nil]

/-- Value a merge stores at a changed flat string leaf: the backend
result, or the original text when the backend fails. -/
def leafVal (tr : Translator) (frm tgt s : String) : String :=
  match tr s frm tgt with
  | .ok t => t
  | .error _ => s

/-- Evaluation of translateElements on a single literal element: one
backend call with the literal text. -/
lemma translateElements_single_lit (tr : Translator) (frm tgt s : String) (hs : s ≠ "") :
    translateElements (transFuel s) tr frm tgt [.literal s] =
      (match tr s frm tgt with
       | .ok t => (.ok t, [s])
       | .error m => (.error ("failed to translate literal: " ++ m), [s])) := by
  have h2 : 2 ≤ transFuel s := by
    have : 2 * 1024 ≤ (s.length + 2) * 1024 := Nat.mul_le_mul_right 1024 (by omega)
    unfold transFuel
    omega
  obtain ⟨m, hm⟩ : ∃ m, transFuel s = m + 2 := ⟨transFuel s - 2, by omega⟩
  rw [hm]
  unfold translateElements
  simp only [translateRun]
  rw [if_neg hs]
  rcases htr : tr s frm tgt with t | e <;> simp [htr, str_append_empty]

/-- Characterization of the simple merge on a flat tree of non-metadata
string leaves with no previous content: it succeeds, and every leaf
stores its leaf value. -/
lemma simpleExec_flat (tr : Translator) (frm tgt : String) :
    ∀ (obj : List (String × JValue)) (fuel : Nat), obj.length < fuel →
      (∀ p ∈ obj, (∃ s, p.2 = JValue.str s) ∧ headIsAt p.1 = false) →
      ∃ es, simpleExec fuel tr frm tgt obj [] = .ok es ∧
        ∀ k s, mget k obj = some (.str s) →
          mget k (resTree es) = some (.str (leafVal tr frm tgt s)) := by
  intro obj
  induction obj with
  | nil =>
    intro fuel hf _
    match fuel, hf with
    | n + 1, _ => exact ⟨[], rfl, fun k s h => by simp [mget] at h⟩
  | cons hd rest ih =>
    intro fuel hf hflat
    obtain ⟨k', v'⟩ := hd
    obtain ⟨⟨s', hs'⟩, hmeta⟩ := hflat (k', v') (by simp)
    subst hs'
    match fuel, hf with
    | n + 1, hf2 =>
      obtain ⟨es', hex', hchar'⟩ := ih n
        (by simp only [List.length_cons] at hf2; omega)
        (fun p hp => hflat p (by simp [hp]))
      have hhead : simpleHead tr frm tgt k' (.str s') []
          (simpleExec n tr frm tgt (fieldsOf (.str s')) (prevFieldsFor k' [])) =
          .entry (k', .str (leafVal tr frm tgt s'), [s']) := by
        unfold simpleHead
        rw [if_neg (by simp [hmeta])]
        dsimp only
        rw [if_neg (by simp [prevMatches, mget])]
        unfold leafVal
        rcases htr : tr s' frm tgt with t | e <;> simp [htr]
      refine ⟨(k', .str (leafVal tr frm tgt s'), [s']) :: es', ?_, ?_⟩
      · simp only [simpleExec, hhead, hex', combineE]
      · intro k s hm
        by_cases hk : k' = k
        · subst hk
          have hss : s' = s := by simpa [mget] using hm
          subst hss
          simp [resTree, mget]
        · have : mget k rest = some (.str s) := by simpa [mget, hk] using hm
          have := hchar' k s this
          simpa [resTree, mget, hk] using this

/-- Characterization of the AST merge on a flat tree of non-metadata
string leaves, each parsing to a single literal node, with no previous
content: it succeeds, and every leaf stores its leaf value. -/
lemma astExec_flat (tr : Translator) (frm tgt : String) :
    ∀ (obj : List (String × JValue)) (fuel : Nat), obj.length < fuel →
      (∀ p ∈ obj, (∃ s, p.2 = JValue.str s) ∧ headIsAt p.1 = false) →
      (∀ p ∈ obj, ∀ s, p.2 = JValue.str s → icuParse s = .ok [.literal s]) →
      ∃ es, astExec fuel tr frm tgt obj [] = .ok es ∧
        ∀ k s, mget k obj = some (.str s) →
          mget k (resTree es) = some (.str (leafVal tr frm tgt s)) := by
  intro obj
  induction obj with
  | nil =>
    intro fuel hf _ _
    match fuel, hf with
    | n + 1, _ => exact ⟨[], rfl, fun k s h => by simp [mget] at h⟩
  | cons hd rest ih =>
    intro fuel hf hflat hparse
    obtain ⟨k', v'⟩ := hd
    obtain ⟨⟨s', hs'⟩, hmeta⟩ := hflat (k', v') (by simp)
    subst hs'
    have hp' : icuParse s' = .ok [.literal s'] := hparse (k', .str s') (by simp) s' rfl
    have hsne : s' ≠ "" := by
      intro hempty
      subst hempty
      have : PRes.ok ([] : List Element) = PRes.ok [Element.literal ""] := Eq.trans (by rfl) hp'
      simp at this
    match fuel, hf with
    | n + 1, hf2 =>
      obtain ⟨es', hex', hchar'⟩ := ih n
        (by simp only [List.length_cons] at hf2; omega)
        (fun p hp => hflat p (by simp [hp]))
        (fun p hp s hs => hparse p (by simp [hp]) s hs)
      have hhead : astHead tr frm tgt k' (.str s') []
          (astExec n tr frm tgt (fieldsOf (.str s')) (prevFieldsFor k' [])) =
          .entry (k', .str (leafVal tr frm tgt s'), [s']) := by
        unfold astHead
        rw [if_neg (by simp [hmeta])]
        dsimp only
        rw [if_neg (by simp [prevMatches, mget])]
        rw [hp']
        dsimp only
        rw [translateElements_single_lit tr frm tgt s' hsne]
        unfold leafVal
        rcases htr : tr s' frm tgt with t | e <;> simp [htr]
      refine ⟨(k', .str (leafVal tr frm tgt s'), [s']) :: es', ?_, ?_⟩
      · simp only [astExec, hhead, hex', combineE]
      · intro k s hm
        by_cases hk : k' = k
        · subst hk
          have hss : s' = s := by simpa [mget] using hm
          subst hss
          simp [resTree, mget]
        · have : mget k rest = some (.str s) := by simpa [mget, hk] using hm
          have := hchar' k s this
          simpa [resTree, mget, hk] using this

/-- C6: when the backend fails for exactly one of several sibling string
leaves, both merges still return successfully, keep the original source
text at the failed leaf, and store the translated text at every sibling
leaf (for the AST merge, under leaves that parse to single literal
nodes). -/
theorem c6_partial_failure_containment (tr : Translator) (frm tgt : String)
    (obj : List (String × JValue)) (k0 s0 e0 : String)
    (hflat : ∀ p ∈ obj, (∃ s, p.2 = JValue.str s) ∧ headIsAt p.1 = false)
    (hk : mget k0 obj = some (.str s0))
    (hfail : tr s0 frm tgt = .error e0)
    (hok : ∀ k s, k ≠ k0 → mget k obj = some (.str s) → ∃ t, tr s frm tgt = .ok t) :
    (∃ es, simpleExecute tr frm tgt obj [] = .ok es ∧
      mget k0 (resTree es) = some (.str s0) ∧
      ∀ k s t, k ≠ k0 → mget k obj = some (.str s) → tr s frm tgt = .ok t →
        mget k (resTree es) = some (.str t)) ∧
    ((∀ p ∈ obj, ∀ s, p.2 = JValue.str s → icuParse s = .ok [.literal s]) →
      ∃ es, astExecute tr frm tgt obj [] = .ok es ∧
        mget k0 (resTree es) = some (.str s0) ∧
        ∀ k s t, k ≠ k0 → mget k obj = some (.str s) → tr s frm tgt = .ok t →
          mget k (resTree es) = some (.str t)) := by
  have hlen : obj.length < jsize obj := by
    clear hflat hk hok
    induction obj with
    | nil => simp [jsize]
    | cons hd rest ih =>
      obtain ⟨k, v⟩ := hd
      have : 1 ≤ jsize.go v := by cases v <;> simp [jsize.go]
      simp only [jsize, List.length_cons]
      omega
  constructor
  · obtain ⟨es, hex, hchar⟩ := simpleExec_flat tr frm tgt obj (jsize obj) hlen hflat
    refine ⟨es, hex, ?_, ?_⟩
    · have := hchar k0 s0 hk
      simpa [leafVal, hfail] using this
    · intro k s t hne hm htr
      have := hchar k s hm
      simpa [leafVal, htr] using this
  · intro hparse
    obtain ⟨es, hex, hchar⟩ := astExec_flat tr frm tgt obj (jsize obj) hlen hflat hparse
    refine ⟨es, hex, ?_, ?_⟩
    · have := hchar k0 s0 hk
      simpa [leafVal, hfail] using this
    · intro k s t hne hm htr
      have := hchar k s hm
      simpa [leafVal, htr] using this

/-- Backend of the C6 witness: it fails on one text and tags every
other. -/
def c6Tr : Translator := fun t _ _ => if t = "bb" then .error "quota" else .ok ("[fr] " ++ t)

/-- Source tree of the C6 witness. -/
def c6Obj : List (String × JValue) :=
  [("a", .str "aa"), ("b", .str "bb"), ("c", .str "cc")]

/-- Witness for C6: three sibling leaves, the backend failing exactly on
the middle one. -/
theorem c6_witness :
    (c6Tr "bb" "en" "fr" = .error "quota") ∧
    (∃ es, simpleExecute c6Tr "en" "fr" c6Obj [] = .ok es ∧
      mget "b" (resTree es) = some (.str "bb") ∧
      ∀ k s t, k ≠ "b" → mget k c6Obj = some (.str s) → c6Tr s "en" "fr" = .ok t →
        mget k (resTree es) = some (.str t)) := by
  refine ⟨rfl, ?_⟩
  refine (c6_partial_failure_containment c6Tr "en" "fr" c6Obj "b" "bb" "quota"
    ?_ rfl rfl ?_).1
  · intro p hp
    simp only [c6Obj, List.mem_cons, List.mem_singleton] at hp
    rcases hp with rfl | rfl | rfl | h
    · exact ⟨⟨"aa", rfl⟩, rfl⟩
    · exact ⟨⟨"bb", rfl⟩, rfl⟩
    · exact ⟨⟨"cc", rfl⟩, rfl⟩
    · cases h
  · intro k s hne hm
    simp only [c6Obj, mget] at hm
    by_cases ha : "a" = k
    · rw [if_pos ha] at hm
      cases hm
      exact ⟨"[fr] aa", rfl⟩
    · rw [if_neg ha] at hm
      by_cases hb : "b" = k
      · exact absurd hb.symm hne
      · rw [if_neg hb] at hm
        by_cases hc : "c" = k
        · rw [if_pos hc] at hm
          cases hm
          exact ⟨"[fr] cc", rfl⟩
        · rw [if_neg hc] at hm
          cases hm

/-- Totality of the byte-order comparison. -/
lemma charsLe_total : ∀ a b, strLeB.charsLe a b = true ∨ strLeB.charsLe b a = true
  | [], _ => Or.inl rfl
  | _ :: _, [] => Or.inr rfl
  | c :: cs, d :: ds => by
    rcases lt_trichotomy c d with h | h | h
    · left; simp [strLeB.charsLe, h]
    · subst h
      rcases charsLe_total cs ds with ih | ih
      · left; simp [strLeB.charsLe, lt_irrefl, ih]
      · right; simp [strLeB.charsLe, lt_irrefl, ih]
    · right; simp [strLeB.charsLe, h]

/-- Transitivity of the byte-order comparison. -/
lemma charsLe_trans : ∀ a b c, strLeB.charsLe a b = true → strLeB.charsLe b c = true →
    strLeB.charsLe a c = true
  | [], _, _ => by intro _ _; rfl
  | _ :: _, [], _ => by intro h1 _; simp [strLeB.charsLe] at h1
  | _ :: _, _ :: _, [] => by intro _ h2; simp [strLeB.charsLe] at h2
  | a :: as, b :: bs, c :: cs => by
    intro h1 h2
    by_cases hab : a < b
    · by_cases hbc : b < c
      · simp [strLeB.charsLe, lt_trans hab hbc]
      · by_cases hcb : c < b
        · simp [strLeB.charsLe, hbc, hcb] at h2
        · have hbc2 : b = c := le_antisymm (not_lt.mp hcb) (not_lt.mp hbc)
          subst hbc2
          simp [strLeB.charsLe, hab]
    · by_cases hba : b < a
      · simp [strLeB.charsLe, hab, hba] at h1
      · have hab2 : a = b := le_antisymm (not_lt.mp hba) (not_lt.mp hab)
        subst hab2
        simp only [strLeB.charsLe, lt_irrefl, if_false] at h1
        by_cases hac : a < c
        · simp [strLeB.charsLe, hac]
        · by_cases hca : c < a
          · simp [strLeB.charsLe, hac, hca] at h2
          · simp only [strLeB.charsLe, lt_irrefl, hac, hca, if_false] at h2 ⊢
            exact charsLe_trans as bs cs h1 h2

/-- Antisymmetry of the byte-order comparison. -/
lemma charsLe_antisymm : ∀ a b, strLeB.charsLe a b = true → strLeB.charsLe b a = true → a = b
  | [], [] => by intro _ _; rfl
  | [], _ :: _ => by intro _ h2; simp [strLeB.charsLe] at h2
  | _ :: _, [] => by intro h1 _; simp [strLeB.charsLe] at h1
  | a :: as, b :: bs => by
    intro h1 h2
    by_cases hab : a < b
    · simp [strLeB.charsLe, hab, lt_asymm hab] at h2
    · by_cases hba : b < a
      · simp [strLeB.charsLe, hab, hba] at h1
      · have hab2 : a = b := le_antisymm (not_lt.mp hba) (not_lt.mp hab)
        subst hab2
        simp only [strLeB.charsLe, lt_irrefl, if_false] at h1 h2
        rw [charsLe_antisymm as bs h1 h2]

/-- Antisymmetry instance of the string comparison, for the canonical
form of sorting. -/
instance : IsAntisymm String (fun a b => strLeB a b = true) :=
  ⟨fun a b h1 h2 => by
    obtain ⟨da⟩ := a
    obtain ⟨db⟩ := b
    have := charsLe_antisymm da db h1 h2
    rw [this]⟩

/-- Insertion keeps the sorted-list content: the result is a permutation
of pushing the element on top. -/
lemma ordIns_perm (s : String) : ∀ l : List String, List.Perm (ordIns s l) (s :: l)
  | [] => List.Perm.refl _
  | t :: rest => by
    by_cases h : strLeB s t = true
    · simp [ordIns, h]
    · simp only [ordIns, h, if_false]
      exact ((ordIns_perm s rest).cons t).trans (List.Perm.swap s t rest)

/-- Sorting permutes the input. -/
lemma sortStrings_perm : ∀ l : List String, List.Perm (sortStrings l) l
  | [] => List.Perm.refl _
  | s :: rest => (ordIns_perm s (sortStrings rest)).trans ((sortStrings_perm rest).cons s)

/-- Insertion preserves sortedness. -/
lemma ordIns_sorted (s : String) : ∀ l : List String,
    List.Pairwise (fun a b => strLeB a b = true) l →
    List.Pairwise (fun a b => strLeB a b = true) (ordIns s l)
  | [], _ => by simp [ordIns]
  | t :: rest, h => by
    obtain ⟨hts, hrest⟩ := List.pairwise_cons.mp h
    by_cases hst : strLeB s t = true
    · simp only [ordIns, hst, if_true]
      refine List.pairwise_cons.mpr ⟨?_, h⟩
      intro u hu
      rcases List.mem_cons.mp hu with rfl | hu2
      · exact hst
      · exact charsLe_trans s.data t.data u.data hst (hts u hu2)
    · simp only [ordIns, hst, if_false]
      refine List.pairwise_cons.mpr ⟨?_, ordIns_sorted s rest hrest⟩
      intro u hu
      rcases List.mem_cons.mp ((ordIns_perm s rest).mem_iff.mp hu) with rfl | hu2
      · rcases charsLe_total u.data t.data with hc | hc
        · exact absurd hc hst
        · exact hc
      · exact hts u hu2

/-- Sorting sorts. -/
lemma sortStrings_sorted : ∀ l : List String,
    List.Pairwise (fun a b => strLeB a b = true) (sortStrings l)
  | [] => List.Pairwise.nil
  | s :: rest => ordIns_sorted s (sortStrings rest) (sortStrings_sorted rest)

/-- Sorting is canonical: permuted inputs sort to the same list. -/
lemma sortStrings_canon {l1 l2 : List String} (h : List.Perm l1 l2) :
    sortStrings l1 = sortStrings l2 :=
  List.eq_of_perm_of_sorted
    ((sortStrings_perm l1).trans (h.trans (sortStrings_perm l2).symm))
    (sortStrings_sorted l1) (sortStrings_sorted l2)

/-- Lookup distributes over list append. -/
lemma mget_append {α : Type} (k : String) :
    ∀ l1 l2 : List (String × α), mget k (l1 ++ l2) =
      match mget k l1 with
      | some v => some v
      | none => mget k l2
  | [], _ => rfl
  | (a, b) :: rest, l2 => by
    by_cases h : a = k
    · simp [mget, h]
    · simp only [List.cons_append, mget, h, if_false]
      exact mget_append k rest l2

/-- Lookup misses keys that are not present. -/
lemma mget_none_of_not_mem {α : Type} (k : String) :
    ∀ l : List (String × α), k ∉ l.map Prod.fst → mget k l = none
  | [], _ => rfl
  | (a, b) :: rest, h => by
    have ha : a ≠ k := by
      intro hak
      exact h (by simp [hak])
    simp only [mget, ha, if_false]
    exact mget_none_of_not_mem k rest (fun hm => h (by simp [hm]))

/-- Lookup finds present keys. -/
lemma mget_isSome_of_mem {α : Type} (k : String) :
    ∀ l : List (String × α), k ∈ l.map Prod.fst → (mget k l).isSome = true
  | [], h => by simp at h
  | (a, b) :: rest, h => by
    by_cases ha : a = k
    · simp [mget, ha]
    · simp only [mget, ha, if_false]
      have : k ∈ rest.map Prod.fst := by
        rcases List.mem_map.mp h with ⟨p, hp, hfst⟩
        rcases List.mem_cons.mp hp with rfl | hp2
        · exact absurd hfst ha
        · exact List.mem_map.mpr ⟨p, hp2, hfst⟩
      exact mget_isSome_of_mem k rest this

/-- Inserting an absent key appends it. -/
lemma upsert_of_not_mem {α : Type} (k : String) (t : α) :
    ∀ l : List (String × α), k ∉ l.map Prod.fst → upsert k t l = l ++ [(k, t)]
  | [], _ => rfl
  | (a, b) :: rest, h => by
    have ha : a ≠ k := by
      intro hak
      exact h (by simp [hak])
    simp only [upsert, ha, if_false, List.cons_append, List.cons.injEq, true_and]
    exact upsert_of_not_mem k t rest (fun hm => h (by simp [hm]))

/-- Fuel monotonicity: a run that does not end in an error is preserved
by any larger fuel. -/
lemma translateRun_mono (tr : Translator) (frm tgt : String) :
    ∀ fuel fuel' x out, fuel ≤ fuel' →
      translateRun fuel tr frm tgt x = out → out.1.isErr = false →
      translateRun fuel' tr frm tgt x = out := by
  intro fuel
  induction fuel with
  | zero =>
    intro fuel' x out _ hrun herr
    rw [← hrun] at herr
    simp [translateRun, TRes.isErr] at herr
  | succ n ih =>
    intro fuel' x out hle hrun herr
    obtain ⟨n', rfl⟩ : ∃ n', fuel' = n' + 1 := ⟨fuel' - 1, by omega⟩
    have hle' : n ≤ n' := by omega
    match x with
    | .el (.literal v) => rw [← hrun]; rfl
    | .el (.argument v st dbl) => rw [← hrun]; rfl
    | .el (.number v st) => rw [← hrun]; rfl
    | .el (.date v st) => rw [← hrun]; rfl
    | .el (.time v st) => rw [← hrun]; rfl
    | .el .pound => rw [← hrun]; rfl
    | .els [] => rw [← hrun]; rfl
    | .opts wrap [] acc => rw [← hrun]; rfl
    | .el (.tag v cs) =>
      rcases h1 : translateRun n tr frm tgt (.els cs) with ⟨a1, c1⟩
      match a1, h1 with
      | .str s, h1 =>
        have h1' := ih n' (.els cs) (.str s, c1) hle' h1 rfl
        rw [← hrun]
        simp only [translateRun, h1, h1']
      | .err m, h1 =>
        rw [← hrun] at herr
        simp only [translateRun, h1, TRes.isErr] at herr
        exact Bool.noConfusion herr
      | .opts os, h1 =>
        rw [← hrun] at herr
        simp only [translateRun, h1, TRes.isErr] at herr
        exact Bool.noConfusion herr
    | .el (.select v os) =>
      rcases h1 : translateRun n tr frm tgt
        (.opts "failed to translate select option: " os []) with ⟨a1, c1⟩
      match a1, h1 with
      | .opts tos, h1 =>
        have h1' := ih n' _ (.opts tos, c1) hle' h1 rfl
        rw [← hrun]
        simp only [translateRun, h1, h1']
      | .err m, h1 =>
        rw [← hrun] at herr
        simp only [translateRun, h1, TRes.isErr] at herr
        exact Bool.noConfusion herr
      | .str s, h1 =>
        rw [← hrun] at herr
        simp only [translateRun, h1, TRes.isErr] at herr
        exact Bool.noConfusion herr
    | .el (.plural v os) =>
      rcases h1 : translateRun n tr frm tgt
        (.opts "failed to translate plural option: " os []) with ⟨a1, c1⟩
      match a1, h1 with
      | .opts tos, h1 =>
        have h1' := ih n' _ (.opts tos, c1) hle' h1 rfl
        rw [← hrun]
        simp only [translateRun, h1, h1']
      | .err m, h1 =>
        rw [← hrun] at herr
        simp only [translateRun, h1, TRes.isErr] at herr
        exact Bool.noConfusion herr
      | .str s, h1 =>
        rw [← hrun] at herr
        simp only [translateRun, h1, TRes.isErr] at herr
        exact Bool.noConfusion herr
    | .els (e :: rest) =>
      rcases h1 : translateRun n tr frm tgt (.el e) with ⟨a1, c1⟩
      match a1, h1 with
      | .err m, h1 =>
        rw [← hrun] at herr
        simp only [translateRun, h1, TRes.isErr] at herr
        exact Bool.noConfusion herr
      | .opts os, h1 =>
        rw [← hrun] at herr
        simp only [translateRun, h1, TRes.isErr] at herr
        exact Bool.noConfusion herr
      | .str s, h1 =>
        have h1' := ih n' (.el e) (.str s, c1) hle' h1 rfl
        rcases h2 : translateRun n tr frm tgt (.els rest) with ⟨a2, c2⟩
        match a2, h2 with
        | .err m, h2 =>
          rw [← hrun] at herr
          simp only [translateRun, h1, h2, TRes.isErr] at herr
          exact Bool.noConfusion herr
        | .opts os, h2 =>
          rw [← hrun] at herr
          simp only [translateRun, h1, h2, TRes.isErr] at herr
          exact Bool.noConfusion herr
        | .str s2, h2 =>
          have h2' := ih n' (.els rest) (.str s2, c2) hle' h2 rfl
          rw [← hrun]
          simp only [translateRun, h1, h1', h2, h2']
    | .opts wrap ((k, els) :: rest) acc =>
      rcases h1 : translateRun n tr frm tgt (.els els) with ⟨a1, c1⟩
      match a1, h1 with
      | .err m, h1 =>
        rw [← hrun] at herr
        simp only [translateRun, h1, TRes.isErr] at herr
        exact Bool.noConfusion herr
      | .opts os, h1 =>
        rw [← hrun] at herr
        simp only [translateRun, h1, TRes.isErr] at herr
        exact Bool.noConfusion herr
      | .str t, h1 =>
        have h1' := ih n' (.els els) (.str t, c1) hle' h1 rfl
        rcases h2 : translateRun n tr frm tgt (.opts wrap rest (upsert k t acc)) with ⟨a2, c2⟩
        have herr2 : a2.isErr = false := by
          rw [← hrun] at herr
          simp only [translateRun, h1, h2] at herr
          exact herr
        have h2' := ih n' (.opts wrap rest (upsert k t acc)) (a2, c2) hle' h2 herr2
        rw [← hrun]
        simp only [translateRun, h1, h1', h2, h2']

/-- Inversion of a successful option-translation run: the produced
mapping holds the accumulated options followed by one translated entry
per option key, each entry's value coming from a successful run of its
option body. -/
lemma optsRun_inv (tr : Translator) (frm tgt wrap : String) :
    ∀ (opts : List (String × List Element)) (fuel : Nat)
      (acc tos : List (String × String)) (cs : List String),
      (opts.map Prod.fst).Nodup →
      (∀ k, k ∈ opts.map Prod.fst → k ∉ acc.map Prod.fst) →
      translateRun fuel tr frm tgt (.opts wrap opts acc) = (.opts tos, cs) →
      tos.map Prod.fst = acc.map Prod.fst ++ opts.map Prod.fst ∧
      (∀ k, k ∉ opts.map Prod.fst → mget k tos = mget k acc) ∧
      (∀ k els, (k, els) ∈ opts → ∃ t f cs',
        translateRun f tr frm tgt (.els els) = (.str t, cs') ∧ mget k tos = some t) := by
  intro opts
  induction opts with
  | nil =>
    intro fuel acc tos cs _ _ hrun
    match fuel, hrun with
    | 0, hrun => exact absurd hrun (by simp [translateRun])
    | n + 1, hrun =>
      simp only [translateRun] at hrun
      injection hrun with hx hy
      injection hx with hx2
      subst hx2
      refine ⟨by simp, fun k _ => rfl, fun k els hmem => by simp at hmem⟩
  | cons hd rest ih =>
    intro fuel acc tos cs hnd hdisj hrun
    obtain ⟨k, els⟩ := hd
    match fuel, hrun with
    | 0, hrun => exact absurd hrun (by simp [translateRun])
    | n + 1, hrun =>
      simp only [translateRun] at hrun
      rcases h1 : translateRun n tr frm tgt (.els els) with ⟨a1, c1⟩
      rw [h1] at hrun
      match a1, hrun with
      | .err m, hrun => injection hrun with hx _; cases hx
      | .opts os, hrun => injection hrun with hx _; cases hx
      | .str t, hrun =>
        dsimp only at hrun
        rcases h2 : translateRun n tr frm tgt (.opts wrap rest (upsert k t acc)) with ⟨a2, c2⟩
        rw [h2] at hrun
        dsimp only at hrun
        injection hrun with hx hy
        subst hx
        have hcons : (k :: rest.map Prod.fst).Nodup := by simpa using hnd
        obtain ⟨hknotin, hndrest⟩ := List.nodup_cons.mp hcons
        have hkacc : k ∉ acc.map Prod.fst := hdisj k (by simp)
        have hup : upsert k t acc = acc ++ [(k, t)] := upsert_of_not_mem k t acc hkacc
        have hdisj2 : ∀ k2, k2 ∈ rest.map Prod.fst → k2 ∉ (upsert k t acc).map Prod.fst := by
          intro k2 hk2
          rw [hup]
          simp only [List.map_append, List.mem_append]
          rintro (hin | hin)
          · exact hdisj k2 (by simp [hk2]) hin
          · simp only [List.map_cons, List.map_nil, List.mem_singleton] at hin
            exact hknotin (hin ▸ hk2)
        obtain ⟨hkeys, hout, hopt⟩ := ih n (upsert k t acc) tos c2 hndrest hdisj2 h2
        refine ⟨?_, ?_, ?_⟩
        · rw [hkeys, hup]
          simp
        · intro k2 hk2
          have hk2r : k2 ∉ rest.map Prod.fst := fun hm => hk2 (by simp [hm])
          have hk2k : k2 ≠ k := fun he => hk2 (by simp [he])
          rw [hout k2 hk2r, hup, mget_append]
          rcases hm : mget k2 acc with _ | v
          · simp [mget, Ne.symm hk2k]
          · simp
        · intro k2 els2 hmem
          rcases List.mem_cons.mp hmem with heq | hmem2
          · cases heq
            refine ⟨t, n, c1, h1, ?_⟩
            rw [hout k hknotin, hup, mget_append]
            rw [mget_none_of_not_mem k acc hkacc]
            simp [mget]
          · exact hopt k2 els2 hmem2

/-- The reassembled plural format depends only on the key content and
the lookup function of the translated options. -/
lemma pluralEmit_congr (v : String) (A B : List (String × String))
    (hk : List.Perm (A.map Prod.fst) (B.map Prod.fst))
    (hm : ∀ k, mget k A = mget k B) : pluralEmit v A = pluralEmit v B := by
  unfold pluralEmit
  have hfix : (fun (acc : String) form =>
      match mget form A with
      | some t => acc ++ form ++ " \x7b" ++ t ++ "\x7d "
      | none => acc) =
      (fun (acc : String) form =>
      match mget form B with
      | some t => acc ++ form ++ " \x7b" ++ t ++ "\x7d "
      | none => acc) := by
    funext acc form
    rw [hm form]
  have hrem : sortStrings ((A.map Prod.fst).filter (fun k => ¬ pluralForms.contains k)) =
      sortStrings ((B.map Prod.fst).filter (fun k => ¬ pluralForms.contains k)) :=
    sortStrings_canon (hk.filter _)
  have hfold : (fun (acc : String) k => acc ++ k ++ " \x7b" ++ (mget k A).getD "" ++ "\x7d ") =
      (fun (acc : String) k => acc ++ k ++ " \x7b" ++ (mget k B).getD "" ++ "\x7d ") := by
    funext acc k
    rw [hm k]
  rw [hfix, hrem, hfold]

/-- The reassembled select format depends only on the key content and
the lookup function of the translated options. -/
lemma selectEmit_congr (v : String) (A B : List (String × String))
    (hk : List.Perm (A.map Prod.fst) (B.map Prod.fst))
    (hm : ∀ k, mget k A = mget k B) : selectEmit v A = selectEmit v B := by
  unfold selectEmit
  have hkeys : sortStrings (A.map Prod.fst) = sortStrings (B.map Prod.fst) :=
    sortStrings_canon hk
  have hfold : (fun (acc : String) k => acc ++ k ++ " \x7b" ++ (mget k A).getD "" ++ "\x7d ") =
      (fun (acc : String) k => acc ++ k ++ " \x7b" ++ (mget k B).getD "" ++ "\x7d ") := by
    funext acc k
    rw [hm k]
  rw [hkeys, hfold]

/-- Runs of the option loop over permuted option maps with distinct keys
produce translated mappings with permuted keys and the same lookups. -/
lemma optsRun_det (tr : Translator) (frm tgt wrap : String)
    (opts opts2 : List (String × List Element))
    (hperm : List.Perm opts opts2) (hnd : (opts.map Prod.fst).Nodup) :
    ∀ n n2 tos tos2 cs cs2,
      translateRun n tr frm tgt (.opts wrap opts []) = (.opts tos, cs) →
      translateRun n2 tr frm tgt (.opts wrap opts2 []) = (.opts tos2, cs2) →
      List.Perm (tos.map Prod.fst) (tos2.map Prod.fst) ∧ ∀ k, mget k tos = mget k tos2 := by
  intro n n2 tos tos2 cs cs2 hrun1 hrun2
  have hnd2 : (opts2.map Prod.fst).Nodup := ((hperm.map Prod.fst).nodup_iff).mp hnd
  obtain ⟨hkeys1, hout1, hopt1⟩ :=
    optsRun_inv tr frm tgt wrap opts n [] tos cs hnd (by simp) hrun1
  obtain ⟨hkeys2, hout2, hopt2⟩ :=
    optsRun_inv tr frm tgt wrap opts2 n2 [] tos2 cs2 hnd2 (by simp) hrun2
  constructor
  · rw [hkeys1, hkeys2]
    simpa using hperm.map Prod.fst
  · intro k
    by_cases hk : k ∈ opts.map Prod.fst
    · rcases List.mem_map.mp hk with ⟨⟨k1, els⟩, hp, hfst⟩
      cases hfst
      obtain ⟨t1, f1, cs1, hr1, hm1⟩ := hopt1 _ els hp
      obtain ⟨t2, f2, cs2b, hr2, hm2⟩ := hopt2 _ els (hperm.mem_iff.mp hp)
      have hR1 := translateRun_mono tr frm tgt f1 (max f1 f2) (.els els) (.str t1, cs1)
        (le_max_left f1 f2) hr1 rfl
      have hR2 := translateRun_mono tr frm tgt f2 (max f1 f2) (.els els) (.str t2, cs2b)
        (le_max_right f1 f2) hr2 rfl
      rw [hR1] at hR2
      injection hR2 with hx _
      injection hx with hx2
      rw [hm1, hm2, hx2]
    · have hk2 : k ∉ opts2.map Prod.fst := fun hin => hk ((hperm.map Prod.fst).mem_iff.mpr hin)
      rw [hout1 k hk, hout2 k hk2]

/-- Inversion of a successful plural translation: the output string is
the plural reassembly of a translated option mapping produced by a
successful run of the option loop. -/
lemma pluralRun_inv (tr : Translator) (frm tgt v : String)
    (opts : List (String × List Element)) (f : Nat) (s : String) (cs : List String)
    (h : translateElement f tr frm tgt (.plural v opts) = (.ok s, cs)) :
    ∃ n tos, translateRun n tr frm tgt
        (.opts "failed to translate plural option: " opts []) = (.opts tos, cs) ∧
      s = pluralEmit v tos := by
  match f, h with
  | 0, h => exact absurd h (by simp [translateElement, translateRun])
  | n + 1, h =>
    rcases h2 : translateRun n tr frm tgt
        (.opts "failed to translate plural option: " opts []) with ⟨a2, c2⟩
    simp only [translateElement, translateRun, h2] at h
    match a2, h with
    | .opts tos, h =>
      dsimp only at h
      injection h with hx hy
      injection hx with hx2
      exact ⟨n, tos, by rw [hy] at h2; exact h2, hx2.symm⟩
    | .err m, h =>
      dsimp only at h
      injection h with hx _
      cases hx
    | .str t, h =>
      dsimp only at h
      injection h with hx _
      cases hx

/-- Inversion of a successful select translation: the output string is
the select reassembly of a translated option mapping produced by a
successful run of the option loop. -/
lemma selectRun_inv (tr : Translator) (frm tgt v : String)
    (opts : List (String × List Element)) (f : Nat) (s : String) (cs : List String)
    (h : translateElement f tr frm tgt (.select v opts) = (.ok s, cs)) :
    ∃ n tos, translateRun n tr frm tgt
        (.opts "failed to translate select option: " opts []) = (.opts tos, cs) ∧
      s = selectEmit v tos := by
  match f, h with
  | 0, h => exact absurd h (by simp [translateElement, translateRun])
  | n + 1, h =>
    rcases h2 : translateRun n tr frm tgt
        (.opts "failed to translate select option: " opts []) with ⟨a2, c2⟩
    simp only [translateElement, translateRun, h2] at h
    match a2, h with
    | .opts tos, h =>
      dsimp only at h
      injection h with hx hy
      injection hx with hx2
      exact ⟨n, tos, by rw [hy] at h2; exact h2, hx2.symm⟩
    | .err m, h =>
      dsimp only at h
      injection h with hx _
      cases hx
    | .str t, h =>
      dsimp only at h
      injection h with hx _
      cases hx

/-- C3, amended: reassembly in translateElement is deterministic — for
option maps that are permutations of each other with distinct keys,
successful plural translations agree and successful select translations
agree — but only plural categories follow the fixed sequence zero, one,
two, few, many, other with the remaining categories appended in
lexicographic order, while select categories are emitted in
lexicographic order of all keys; the textual rendering elementString
instead follows the option map iteration order, so permuting the map
changes it. -/
theorem c3_reassembly_order_amended (tr : Translator) (frm tgt v w : String)
    (po po2 so so2 : List (String × List Element))
    (f f2 g g2 : Nat) (s s2 u u2 : String) (cs cs2 ds ds2 : List String)
    (hpp : List.Perm po po2) (hpnd : (po.map Prod.fst).Nodup)
    (hsp : List.Perm so so2) (hsnd : (so.map Prod.fst).Nodup)
    (hp1 : translateElement f tr frm tgt (.plural v po) = (.ok s, cs))
    (hp2 : translateElement f2 tr frm tgt (.plural v po2) = (.ok s2, cs2))
    (hs1 : translateElement g tr frm tgt (.select w so) = (.ok u, ds))
    (hs2 : translateElement g2 tr frm tgt (.select w so2) = (.ok u2, ds2)) :
    s = s2 ∧ u = u2 ∧
    (translateElement 50 frTr "en" "fr"
        (.plural "n" [("few", [.literal "f"]), ("=1", [.literal "x"]),
          ("zero", [.literal "z"])])).1 =
      .ok "\x7bn, plural, zero \x7b[fr] z\x7d few \x7b[fr] f\x7d =1 \x7b[fr] x\x7d \x7d" ∧
    (translateElement 50 frTr "en" "fr"
        (.select "g" [("male", [.literal "m"]), ("female", [.literal "w"])])).1 =
      .ok "\x7bg, select, female \x7b[fr] w\x7d male \x7b[fr] m\x7d \x7d" ∧
    elementString 10 (.select "g" [("b", []), ("a", [])]) =
      "\x7bg, select, b \x7b\x7d a \x7b\x7d \x7d" ∧
    elementString 10 (.select "g" [("a", []), ("b", [])]) =
      "\x7bg, select, a \x7b\x7d b \x7b\x7d \x7d" := by
  obtain ⟨n1, tos1, hr1, he1⟩ := pluralRun_inv tr frm tgt v po f s cs hp1
  obtain ⟨n2, tos2, hr2, he2⟩ := pluralRun_inv tr frm tgt v po2 f2 s2 cs2 hp2
  obtain ⟨m1, us1, hq1, hf1⟩ := selectRun_inv tr frm tgt w so g u ds hs1
  obtain ⟨m2, us2, hq2, hf2⟩ := selectRun_inv tr frm tgt w so2 g2 u2 ds2 hs2
  obtain ⟨hkp, hmp⟩ := optsRun_det tr frm tgt
    "failed to translate plural option: " po po2 hpp hpnd n1 n2 tos1 tos2 cs cs2 hr1 hr2
  obtain ⟨hks, hms⟩ := optsRun_det tr frm tgt
    "failed to translate select option: " so so2 hsp hsnd m1 m2 us1 us2 ds ds2 hq1 hq2
  refine ⟨?_, ?_, rfl, rfl, rfl, rfl⟩
  · rw [he1, he2]
    exact pluralEmit_congr v tos1 tos2 hkp hmp
  · rw [hf1, hf2]
    exact selectEmit_congr w us1 us2 hks hms

/-- Witness for C3 on a two-option plural and a two-option select, each
run on the option map and on its permutation at different fuels: the
reassembled strings agree. -/
theorem c3_witness :
    (translateElement 20 frTr "en" "fr"
        (.plural "n" [("zero", [.literal "z"]), ("many", [.literal "m"])])).1 =
      (translateElement 25 frTr "en" "fr"
        (.plural "n" [("many", [.literal "m"]), ("zero", [.literal "z"])])).1 ∧
    (translateElement 20 frTr "en" "fr"
        (.select "c" [("red", [.literal "r"]), ("blue", [.literal "b"])])).1 =
      (translateElement 25 frTr "en" "fr"
        (.select "c" [("blue", [.literal "b"]), ("red", [.literal "r"])])).1 := by
  have h := c3_reassembly_order_amended frTr "en" "fr" "n" "c"
      [("zero", [Element.literal "z"]), ("many", [Element.literal "m"])]
      [("many", [Element.literal "m"]), ("zero", [Element.literal "z"])]
      [("red", [Element.literal "r"]), ("blue", [Element.literal "b"])]
      [("blue", [Element.literal "b"]), ("red", [Element.literal "r"])]
      20 25 20 25
      "\x7bn, plural, zero \x7b[fr] z\x7d many \x7b[fr] m\x7d \x7d"
      "\x7bn, plural, zero \x7b[fr] z\x7d many \x7b[fr] m\x7d \x7d"
      "\x7bc, select, blue \x7b[fr] b\x7d red \x7b[fr] r\x7d \x7d"
      "\x7bc, select, blue \x7b[fr] b\x7d red \x7b[fr] r\x7d \x7d"
      ["z", "m"] ["m", "z"] ["r", "b"] ["b", "r"]
      (List.Perm.swap _ _ _) (by decide) (List.Perm.swap _ _ _) (by decide)
      rfl rfl rfl rfl
  exact ⟨congrArg Except.ok h.1, congrArg Except.ok h.2.1⟩

/-- Witness for C2 on the parse of a message with a number and a date
placeholder: the backend sees exactly the three literal segments. -/
theorem c2_witness :
    ((translateElements 50 frTr "en" "fr"
        [.literal "You have ", .number "count" "", .literal " new since ",
         .date "date" "short", .literal "."]).1 =
      .ok "[fr] You have \x7bcount, number\x7d[fr]  new since \x7bdate, date, short\x7d[fr] .") ∧
    (translateElements 50 frTr "en" "fr"
        [.literal "You have ", .number "count" "", .literal " new since ",
         .date "date" "short", .literal "."]).2 =
      litSegs 50 [.literal "You have ", .number "count" "", .literal " new since ",
         .date "date" "short", .literal "."] :=
  ⟨rfl, (c2_backend_literal_calls 50 frTr frTr "en" "fr" _).2 _ rfl⟩

end Globify
